import Mathlib

/-!
Verification development for the terminal LRC music player repository.

Python sources are shallowly embedded: pure functions become Lean functions,
Python floats are modelled as rationals (finite values only; the scripts
manipulate small decimal literals for which rational arithmetic agrees with
the float computations at every input used in the statements below),
machine integers are unbounded as in Python, and code paths that can raise
an exception return an `Option` whose `none` models the raised exception.
-/

namespace LrcPlayer

/-- Decimal value of a list of digit characters, as Python `int` computes it
for a string of plain digits (leading zeros allowed). -/
def digitsVal (l : List Char) : ℕ :=
  l.foldl (fun a c => 10 * a + (c.toNat - 48)) 0

/-- Fuel-driven decimal rendering helper (structural recursion so that the
kernel can evaluate it; fuel `n + 1` always suffices for input `n`). -/
def natDigitsAux : ℕ → ℕ → List Char
  | 0, _ => []
  | fuel + 1, n =>
    if n < 10 then [Char.ofNat (48 + n)]
    else natDigitsAux fuel (n / 10) ++ [Char.ofNat (48 + n % 10)]

/-- Decimal digit characters of a natural number, most significant first;
mirrors the output of Python `"%d" % n` for nonnegative `n`. -/
def natDigits (n : ℕ) : List Char := natDigitsAux (n + 1) n

/-- Python zero-padded decimal formatting `f"{n:0{w}d}"` for nonnegative `n`. -/
def padNum (w : ℕ) (n : ℕ) : String :=
  ⟨List.replicate (w - (natDigits n).length) '0' ++ natDigits n⟩

/-- Python `round` on a finite float value, modelled on rationals:
round half to even, returning an integer. -/
def pyRound (q : ℚ) : ℤ :=
  let f : ℤ := ⌊q⌋
  let r : ℚ := q - f
  if r < 1/2 then f
  else if 1/2 < r then f + 1
  else if f % 2 = 0 then f else f + 1

/-- Embedding of `fmt_lrc_time` from `applem-convert-ttml-to-lrc.py.py`
(lines 132-139) and `convert-from-apple-lrc.py` (lines 126-133):
clamp negatives to zero, convert to centiseconds with Python `round`,
and render `mm:ss.cc`. -/
def fmt_lrc_time (seconds : ℚ) : String :=
  let s : ℚ := if seconds < 0 then 0 else seconds
  let total_centis : ℕ := (pyRound (s * 100)).toNat
  let m : ℕ := total_centis / 6000
  let sec : ℕ := (total_centis % 6000) / 100
  let cs : ℕ := total_centis % 100
  padNum 2 m ++ ":" ++ padNum 2 sec ++ "." ++ padNum 2 cs

/-- Round half up on rationals (the rounding mode the specification names). -/
def roundHalfUp (q : ℚ) : ℤ := ⌊q + 1/2⌋

/-- The clock-related fields of `MusicPlayer` in `lrc-player.py`: whether
playback is paused, the wall-clock instant at which the pause began, the
wall-clock instant playback started, the accumulated pause duration, and the
seek correction. Wall-clock times are modelled as rationals. -/
structure ClockState where
  is_paused : Bool
  pause_start_time : ℚ
  start_time : ℚ
  total_pause_time : ℚ
  seek_offset : ℚ

/-- Embedding of `MusicPlayer.get_playback_position` (`lrc-player.py`
lines 769-776); `now` stands for the value `time.time()` would return. -/
def get_playback_position (st : ClockState) (now : ℚ) : ℚ :=
  if st.is_paused then
    max 0 (st.pause_start_time - st.start_time - st.total_pause_time + st.seek_offset)
  else
    max 0 (now - st.start_time - st.total_pause_time + st.seek_offset)

/-- Embedding of the target-position computation of `MusicPlayer.seek_audio`
(`lrc-player.py` lines 828-850): clamp `current + delta` below by `0` and,
when a duration is known and positive, above by `max 0 (duration - 2)`. -/
def seek_audio_target (current_pos : ℚ) (delta_seconds : ℚ)
    (duration : Option ℚ) : ℚ :=
  let min_pos : ℚ := 0
  let max_pos : Option ℚ :=
    match duration with
    | some d => if d > 0 then some (max 0 (d - 2)) else none
    | none => none
  let t1 : ℚ := current_pos + delta_seconds
  let t2 : ℚ := if t1 < min_pos then min_pos else t1
  match max_pos with
  | some mp => if t2 > mp then mp else t2
  | none => t2

/-- Whitespace characters recognised by Python `str.strip` and the regex
class `\s` (ASCII and Unicode whitespace; line-break characters included). -/
def pyIsSpace (c : Char) : Bool :=
  let n := c.toNat
  (9 ≤ n && n ≤ 13) || n = 32 || (28 ≤ n && n ≤ 31) || n = 0x85 || n = 0xa0 ||
    n = 0x1680 || (0x2000 ≤ n && n ≤ 0x200a) || n = 0x2028 || n = 0x2029 ||
    n = 0x202f || n = 0x205f || n = 0x3000

/-- Python `str.strip()` with no argument: drop whitespace from both ends. -/
def pyStrip (s : String) : String :=
  ⟨((s.data.dropWhile pyIsSpace).reverse.dropWhile pyIsSpace).reverse⟩

/-- Python `str.strip(chars)`: drop characters of `set` from both ends.  -/
def pyStripChars (set : List Char) (s : String) : String :=
  ⟨((s.data.dropWhile set.contains).reverse.dropWhile set.contains).reverse⟩

/-- One Python `digitpart`: digits with single underscores strictly between
digits.  `digitsTail` checks the part after a leading digit. -/
def digitsTail : List Char → Bool
  | [] => true
  | c :: rest =>
    if c.isDigit then digitsTail rest
    else if c = '_' then
      match rest with
      | c2 :: rest2 => c2.isDigit && digitsTail rest2
      | [] => false
    else false

/-- Greedily consume a Python `digitpart` from the front of `l`, returning
its numeric value, its digit count, and the remaining characters; fails when
`l` does not start with a digit or an underscore is misplaced. -/
def takeDigitPart (l : List Char) : Option (ℕ × ℕ × List Char) :=
  match l with
  | [] => none
  | c :: _ =>
    if c.isDigit then
      let run := l.takeWhile (fun x => x.isDigit || x = '_')
      let rest := l.dropWhile (fun x => x.isDigit || x = '_')
      if digitsTail run then
        let ds := run.filter (fun x => x ≠ '_')
        some (digitsVal ds, ds.length, rest)
      else none
    else none

/-- Decomposed form of a finite Python float literal: sign, integer part,
fractional digits (value and count), and a signed decimal exponent. -/
structure FloatRepr where
  neg : Bool
  ipart : ℕ
  fpart : ℕ
  fdigits : ℕ
  eneg : Bool
  emag : ℕ
  deriving DecidableEq

/-- Exact rational value of a decomposed float literal. -/
def FloatRepr.val (r : FloatRepr) : ℚ :=
  let m : ℚ := (r.ipart : ℚ) + (r.fpart : ℚ) / 10 ^ r.fdigits
  let e : ℚ := if r.eneg then m / 10 ^ r.emag else m * 10 ^ r.emag
  if r.neg then -e else e

/-- Optional exponent part of a Python float literal followed by end of
input: `[(e|E) [+|-] digitpart]`; returns exponent sign and magnitude. -/
def parseExponentEnd : List Char → Option (Bool × ℕ)
  | [] => some (false, 0)
  | c :: rest =>
    if c = 'e' || c = 'E' then
      match rest with
      | '+' :: r2 =>
        match takeDigitPart r2 with
        | some (v, _, []) => some (false, v)
        | _ => none
      | '-' :: r2 =>
        match takeDigitPart r2 with
        | some (v, _, []) => some (true, v)
        | _ => none
      | r2 =>
        match takeDigitPart r2 with
        | some (v, _, []) => some (false, v)
        | _ => none
    else none

/-- Unsigned mantissa of a Python float literal: `digitpart [. [digitpart]]`
or `. digitpart`; returns integer part, fraction value, fraction digit
count, and the remaining characters. -/
def parseMantissa (l : List Char) : Option (ℕ × ℕ × ℕ × List Char) :=
  match l with
  | '.' :: r1 =>
    (takeDigitPart r1).map (fun x => (0, x.1, x.2.1, x.2.2))
  | _ =>
    match takeDigitPart l with
    | some (v1, _, r1) =>
      match r1 with
      | '.' :: r2 =>
        match r2 with
        | c :: _ =>
          if c.isDigit then
            (takeDigitPart r2).map (fun x => (v1, x.1, x.2.1, x.2.2))
          else some (v1, 0, 0, r2)
        | [] => some (v1, 0, 0, [])
      | _ => some (v1, 0, 0, r1)
    | none => none

/-- Split an optional leading sign off a numeric literal, returning whether
the value is negated and the remaining characters. -/
def splitSign : List Char → Bool × List Char
  | [] => (false, [])
  | c :: rest =>
    if c = '-' then (true, rest)
    else if c = '+' then (false, rest)
    else (false, c :: rest)

/-- Parse a finite Python float literal to its decomposed form (`none`
models a raised `ValueError`). -/
def parseFloatRepr (s : String) : Option FloatRepr :=
  let signBody := splitSign (pyStrip s).data
  match parseMantissa signBody.2 with
  | some (i, f, k, r) =>
    (parseExponentEnd r).map (fun e => ⟨signBody.1, i, f, k, e.1, e.2⟩)
  | none => none

/-- Python `float(s)` on finite numeric literals, modelled on rationals
(`none` models a raised `ValueError`; the non-finite literals `inf`/`nan`
are outside the rational model and none of the repository's inputs use
them). -/
def pyFloatOfString (s : String) : Option ℚ :=
  (parseFloatRepr s).map FloatRepr.val

/-- Python `int(s)` for base-10 string input (`none` models `ValueError`). -/
def pyIntOfString (s : String) : Option ℤ :=
  let signAndRest := splitSign (pyStrip s).data
  match takeDigitPart signAndRest.2 with
  | some (v, _, []) => some (if signAndRest.1 then -(v : ℤ) else (v : ℤ))
  | _ => none

/-- Embedding of `parse_offset_seconds` from `update-lrc-offset.py`
(lines 49-74): parse the offset literal as a float, then interpret it per
the requested units; in `auto` mode a literal containing a decimal point is
seconds, otherwise magnitudes above 100 are milliseconds, else seconds.
`none` models the `ValueError` raised for an unparsable literal. -/
def parse_offset_seconds (raw : String) (units : String) : Option ℚ :=
  match pyFloatOfString raw with
  | none => none
  | some val =>
    if units = "seconds" then some val
    else if units = "milliseconds" then some (val / 1000)
    else
      if raw.data.contains '.' then some val
      else if 100 < |val| then some (val / 1000)
      else some val

/-- Python `s.split(sep)` for a single-character separator: split at every
occurrence, keeping empty pieces. -/
def splitChar (sep : Char) : List Char → List (List Char)
  | [] => [[]]
  | c :: rest =>
    if c = sep then [] :: splitChar sep rest
    else
      match splitChar sep rest with
      | r :: rs => (c :: r) :: rs
      | [] => [[c]]

/-- Python `s.ljust(w, fill)` on a character list. -/
def pyLjust (l : List Char) (w : ℕ) (fill : Char) : List Char :=
  l ++ List.replicate (w - l.length) fill

/-- The `try` body of `LRCParser.parse_timestamp` (`lrc-player.py` lines
71-79): split on `:`, parse minutes, split the second part on `.`, parse
seconds, left-justify the fraction to three characters, truncate to three,
and parse milliseconds; `none` models a raised `ValueError`/`IndexError`. -/
def tryTimestampBody (time_part : List Char) : Option ℚ :=
  match splitChar ':' time_part with
  | p0 :: p1 :: _ =>
    match pyIntOfString ⟨p0⟩ with
    | none => none
    | some minutes =>
      match splitChar '.' p1 with
      | sp0 :: spRest =>
        match pyIntOfString ⟨sp0⟩ with
        | none => none
        | some seconds =>
          match spRest with
          | sp1 :: _ =>
            match pyIntOfString ⟨(pyLjust sp1 3 '0').take 3⟩ with
            | none => none
            | some ms =>
              some ((minutes : ℚ) * 60 + (seconds : ℚ) + (ms : ℚ) / 1000)
          | [] => some ((minutes : ℚ) * 60 + (seconds : ℚ) + (0 : ℚ) / 1000)
      | [] => none
  | _ => none

/-- Embedding of `LRCParser.parse_timestamp` (`lrc-player.py` lines 66-83):
strip surrounding square/angle brackets, return `0.0` when no colon remains,
otherwise run the `try` body and return `0.0` if it raises. -/
def parse_timestamp (timestamp_str : String) : ℚ :=
  let time_part := pyStripChars ['[', ']', '<', '>'] timestamp_str
  if time_part.data.contains ':' then
    match tryTimestampBody time_part.data with
    | some v => v
    | none => 0
  else 0

/-- The character for decimal digit `d`. -/
def digitChar (d : ℕ) : Char := Char.ofNat (48 + d)

/-- Lists consisting only of decimal digit characters. -/
def IsDigitList (l : List Char) : Prop := ∀ c ∈ l, ∃ d, d < 10 ∧ c = digitChar d

/-- The character filter of `re.sub(r"[^0-9\.:]", "", ts)` in
`parse_time_to_seconds`: keep only digits, dots and colons. -/
def cleanTimeChars (l : List Char) : List Char :=
  l.filter (fun c => c.isDigit || c = '.' || c = ':')

/-- The `try` body of `parse_time_to_seconds`
(`applem-convert-ttml-to-lrc.py.py` lines 118-127 and
`convert-from-apple-lrc.py` lines 112-121): three colon-parts are
`H:MM:SS.mmm`, two are `M:SS.mmm`, otherwise `float` of the first part;
`none` models a raised exception. -/
def tryParseTimeParts (parts : List (List Char)) : Option ℚ :=
  match parts with
  | [p0, p1, p2] =>
    match pyIntOfString ⟨p0⟩, pyIntOfString ⟨p1⟩, pyFloatOfString ⟨p2⟩ with
    | some h, some m, some s => some ((h : ℚ) * 3600 + (m : ℚ) * 60 + s)
    | _, _, _ => none
  | [p0, p1] =>
    match pyIntOfString ⟨p0⟩, pyFloatOfString ⟨p1⟩ with
    | some m, some s => some ((m : ℚ) * 60 + s)
    | _, _ => none
  | p0 :: _ => pyFloatOfString ⟨p0⟩
  | [] => none

/-- Embedding of `parse_time_to_seconds`
(`applem-convert-ttml-to-lrc.py.py` lines 113-130 and
`convert-from-apple-lrc.py` lines 107-124).  The Python function recurses
on the cleaned string inside its `except` handler; the `fuel` argument
models the interpreter's recursion limit (1000 by default) and an exhausted
fuel (`none`) models the `RecursionError` the interpreter raises. -/
def parse_time_to_seconds : ℕ → String → Option ℚ
  | 0, _ => none
  | fuel + 1, ts =>
    if ts.data = [] then some 0
    else
      let t := pyStrip ts
      match tryParseTimeParts (splitChar ':' t.data) with
      | some v => some v
      | none =>
        let cleaned := cleanTimeChars t.data
        if cleaned = [] then some 0
        else parse_time_to_seconds fuel ⟨cleaned⟩

/-- Limit behaviour of `parse_time_to_seconds`: the result it reaches with
sufficient fuel, where `none` marks the inputs on which the Python function
never terminates (it raises `RecursionError` at the interpreter's limit). -/
def parseTimeResult (ts : String) : Option ℚ :=
  if ts.data = [] then some 0
  else
    let t := pyStrip ts
    match tryParseTimeParts (splitChar ':' t.data) with
    | some v => some v
    | none =>
      let cleaned := cleanTimeChars t.data
      if cleaned = [] then some 0
      else
        match tryParseTimeParts (splitChar ':' cleaned) with
        | some v => some v
        | none => none

/-- One match of `TIME_TAG_RE` from `update-lrc-offset.py` (lines 44-46):
opening delimiter, the 1-3 minute digits, the 2 second digits, the 0-4
fraction digits (empty when the tag has no dot), and the closing delimiter. -/
structure TagMatch where
  openBr : Char
  mStr : List Char
  sStr : List Char
  fracStr : List Char
  closeBr : Char
  deriving DecidableEq

/-- `m.group(0)`: the matched text itself. -/
def TagMatch.group0 (t : TagMatch) : List Char :=
  t.openBr :: (t.mStr ++ ':' ::
    (t.sStr ++ (if t.fracStr = [] then [] else '.' :: t.fracStr) ++ [t.closeBr]))

/-- The close-delimiter class `[\]>]` of `TIME_TAG_RE`. -/
def isCloseBr (c : Char) : Bool := c = ']' || c = '>'

/-- Attempt to match `TIME_TAG_RE` at the start of `cs`, following the
regex engine's backtracking: `[\[<]` then 1-3 digits (the following
character must be the colon, so a run of 4+ digits can never match), `:`,
exactly two digits, optionally `.` and 1-4 digits that must be directly
followed by the closing delimiter, then `[\]>]`.  Returns the parsed match
and the remaining characters. -/
def tryMatchAt (cs : List Char) : Option (TagMatch × List Char) :=
  match cs with
  | [] => none
  | op :: rest =>
    if op = '[' || op = '<' then
      let mrun := rest.takeWhile Char.isDigit
      let rest2 := rest.dropWhile Char.isDigit
      if 1 ≤ mrun.length ∧ mrun.length ≤ 3 then
        match rest2 with
        | ':' :: rest3 =>
          match rest3 with
          | d1 :: d2 :: rest4 =>
            if d1.isDigit ∧ d2.isDigit then
              match rest4 with
              | '.' :: rest5 =>
                let frun := rest5.takeWhile Char.isDigit
                let rest6 := rest5.dropWhile Char.isDigit
                if 1 ≤ frun.length ∧ frun.length ≤ 4 then
                  match rest6 with
                  | c :: rest7 =>
                    if isCloseBr c then
                      some (⟨op, mrun, [d1, d2], frun, c⟩, rest7)
                    else none
                  | [] => none
                else none
              | c :: rest5 =>
                if isCloseBr c then some (⟨op, mrun, [d1, d2], [], c⟩, rest5)
                else none
              | [] => none
            else none
          | _ => none
        | _ => none
      else none
    else none

/-- Embedding of `apply_offset_to_tag` from `update-lrc-offset.py`
(lines 77-111): mismatched delimiters are returned verbatim; otherwise the
tag is converted to ticks at its own precision, the offset (rounded by
Python `round` at the same resolution) is added, the result is clamped at
zero and re-rendered with the original fractional digit count. -/
def apply_offset_to_tag (t : TagMatch) (offset_seconds : ℚ) : List Char :=
  if (t.openBr = '[' ∧ t.closeBr ≠ ']') ∨ (t.openBr = '<' ∧ t.closeBr ≠ '>')
  then t.group0
  else
    let mm := digitsVal t.mStr
    let ss := digitsVal t.sStr
    let precision := t.fracStr.length
    let base : ℕ := if 0 < precision then 10 ^ precision else 1
    let frac_units : ℕ := if 0 < precision then digitsVal t.fracStr else 0
    let total_units : ℕ := ((mm * 60) + ss) * base + frac_units
    let offset_units : ℤ := pyRound (offset_seconds * base)
    let new_units_z : ℤ := (total_units : ℤ) + offset_units
    let new_units : ℕ := (if new_units_z < 0 then 0 else new_units_z).toNat
    let new_total_seconds := new_units / base
    let new_frac_units := new_units % base
    let new_mm := new_total_seconds / 60
    let new_ss := new_total_seconds % 60
    let frac_part : List Char :=
      if 0 < precision then '.' :: (padNum precision new_frac_units).data else []
    t.openBr :: ((padNum 2 new_mm).data ++ ':' ::
      ((padNum 2 new_ss).data ++ frac_part ++ [t.closeBr]))

/-- `TIME_TAG_RE.sub(sub_fn, line)`: scan left to right; at each position
try to match, emit the rewritten tag and continue after the match, or keep
the character and move on.  The fuel (list length suffices) only serves
structural recursion. -/
def subScanAux (offset : ℚ) : ℕ → List Char → List Char
  | 0, cs => cs
  | fuel + 1, cs =>
    match tryMatchAt cs with
    | some (t, rest) => apply_offset_to_tag t offset ++ subScanAux offset fuel rest
    | none =>
      match cs with
      | [] => []
      | c :: rest => c :: subScanAux offset fuel rest

/-- Apply the time-tag substitution to one line. -/
def subLine (offset : ℚ) (l : List Char) : List Char :=
  subScanAux offset l.length l

/-- Line-break characters recognised by Python `str.splitlines`. -/
def isLineBreak (c : Char) : Bool :=
  c = '\n' || c = '\r' || c = '\x0b' || c = '\x0c' || c = '\x1c' ||
    c = '\x1d' || c = '\x1e' || c = '\u0085' || c = '\u2028' || c = '\u2029'

/-- Helper for `str.splitlines`: `acc` holds the current line reversed and
`lastCR` records whether the previous character was a carriage return, so
that the `\n` of a `\r\n` pair is swallowed instead of ending a line. -/
def splitlinesAux : List Char → Bool → List Char → List String
  | [], _, acc => if acc = [] then [] else [⟨acc.reverse⟩]
  | c :: rest, lastCR, acc =>
    if c = '\n' then
      if lastCR then splitlinesAux rest false acc
      else ⟨acc.reverse⟩ :: splitlinesAux rest false []
    else if c = '\r' then ⟨acc.reverse⟩ :: splitlinesAux rest true []
    else if isLineBreak c then ⟨acc.reverse⟩ :: splitlinesAux rest false []
    else splitlinesAux rest false (c :: acc)

/-- Python `str.splitlines()`. -/
def pySplitlines (s : String) : List String := splitlinesAux s.data false []

/-- The value group of `OFFSET_LINE_RE` (`[-+]?\d+(?:\.\d+)?` followed by
`]`, optional whitespace, and end of line), as matched after the literal
`[offset:` prefix; returns the matched value text. -/
def matchOffsetVal (rest2 : List Char) : Option (List Char) :=
  let signSplit : List Char × List Char :=
    match rest2 with
    | '+' :: r => (['+'], r)
    | '-' :: r => (['-'], r)
    | r => ([], r)
  let d1 := signSplit.2.takeWhile Char.isDigit
  let r4 := signSplit.2.dropWhile Char.isDigit
  if d1 = [] then none
  else
    match r4 with
    | '.' :: r5 =>
      let d2 := r5.takeWhile Char.isDigit
      let r6 := r5.dropWhile Char.isDigit
      if d2 = [] then none
      else
        match r6 with
        | ']' :: tail =>
          if tail.all pyIsSpace then some (signSplit.1 ++ d1 ++ '.' :: d2)
          else none
        | _ => none
    | ']' :: tail =>
      if tail.all pyIsSpace then some (signSplit.1 ++ d1) else none
    | _ => none

/-- `OFFSET_LINE_RE.match(line)` from `update-lrc-offset.py` (line 40):
anchored `\[offset:VAL\]\s*$` with a case-insensitive `offset` literal;
returns the text of the value group. -/
def matchOffsetLine (l : List Char) : Option (List Char) :=
  match l with
  | '[' :: c1 :: c2 :: c3 :: c4 :: c5 :: c6 :: ':' :: rest2 =>
    if c1.toLower = 'o' && c2.toLower = 'f' && c3.toLower = 'f' &&
        c4.toLower = 's' && c5.toLower = 'e' && c6.toLower = 't' then
      matchOffsetVal rest2
    else none
  | _ => none

/-- `zero_offset_line` from `process_lrc` (lines 128-130). -/
def zero_offset_line (line : String) : String :=
  if (matchOffsetLine line.data).isSome then "[offset:0]" else line

/-- First offset line's value group, scanning lines in order
(`process_lrc` lines 119-124). -/
def findFirstOffsetVal : List String → Option (List Char)
  | [] => none
  | l :: rest =>
    match matchOffsetLine l.data with
    | some v => some v
    | none => findFirstOffsetVal rest

/-- Python `"\n".join(lines)`. -/
def joinNL (ls : List String) : String :=
  ⟨(List.intersperse ['\n'] (ls.map String.data)).flatten⟩

/-- The line list produced by `process_lrc` from `update-lrc-offset.py`
(lines 114-145) before the final join: resolve the first offset field; with
no offset or an (effectively) zero offset, normalize offset lines only;
otherwise shift every time tag on every line and reset all offset lines to
`[offset:0]`.  `none` models the `ValueError` of an unparsable offset. -/
def process_lrc_lines (text : String) (units : String) : Option (List String) :=
  let lines := pySplitlines text
  match findFirstOffsetVal lines with
  | none => some (lines.map zero_offset_line)
  | some rawVal =>
    match parse_offset_seconds ⟨rawVal⟩ units with
    | none => none
    | some off =>
      if |off| < 1 / 1000000000000 then some (lines.map zero_offset_line)
      else
        let newLines := lines.map (fun l => (⟨subLine off l.data⟩ : String))
        some (newLines.map
          (fun l => if (matchOffsetLine l.data).isSome then "[offset:0]" else l))

/-- `process_lrc`: the processed lines joined with a newline. -/
def process_lrc (text : String) (units : String) : Option String :=
  (process_lrc_lines text units).map joinNL

/-- Whether `process_lrc` takes its zero-offset branch on this input:
no offset line, or the first offset value resolves below the `1e-12`
threshold. -/
def isZeroOffsetCase (text units : String) : Bool :=
  match findFirstOffsetVal (pySplitlines text) with
  | none => true
  | some raw =>
    match parse_offset_seconds ⟨raw⟩ units with
    | some off => |off| < 1 / 1000000000000
    | none => false

/-- Whether the text's split lines do not end with an empty line (the
join/split round-trip is the identity exactly then). -/
def noTrailingEmptyLine (text : String) : Bool :=
  match (pySplitlines text).getLast? with
  | some l => !(l.data.isEmpty)
  | none => true

/-- Ticks of a matched tag at its own precision, as the claim describes
them: `((minutes*60) + seconds) * 10^p + fraction`. -/
def tagTicks (t : TagMatch) : ℕ :=
  ((digitsVal t.mStr * 60) + digitsVal t.sStr) * 10 ^ t.fracStr.length +
    digitsVal t.fracStr

/-- Rendering described by the claim: minutes (zero-padded to two digits)
are `ticks / (60·10^p)`, seconds are `ticks / 10^p mod 60`, and the
fraction is `ticks mod 10^p` zero-padded to exactly `p` digits. -/
def specRenderTag (openBr closeBr : Char) (p : ℕ) (ticks : ℕ) : List Char :=
  openBr :: ((padNum 2 (ticks / (60 * 10 ^ p))).data ++ ':' ::
    ((padNum 2 (ticks / 10 ^ p % 60)).data ++
      (if p = 0 then [] else '.' :: (padNum p (ticks % 10 ^ p)).data) ++
      [closeBr]))

/-- A word with optional explicit end time (`LyricWord` in
`lrc-player.py` lines 40-49). -/
structure LyricWord where
  timestamp : ℚ
  text : List Char
  end_timestamp : Option ℚ
  deriving DecidableEq

/-- Attempt to match `<\d{2}:\d{2}\.\d{2,3}>` at the start of `cs`
(the tag part of `word_pattern` in `parse_precise_lrc_line`, line 92);
the 2-3 digit fraction is greedy, so three digits are tried first.
Returns the timestamp text (without delimiters) and the remaining input. -/
def tryWordTag (cs : List Char) : Option (List Char × List Char) :=
  match cs with
  | '<' :: a :: b :: c1 :: d :: e :: f1 :: g :: h :: rest =>
    if a.isDigit ∧ b.isDigit ∧ c1 = ':' ∧ d.isDigit ∧ e.isDigit ∧
        f1 = '.' ∧ g.isDigit ∧ h.isDigit then
      match rest with
      | i :: rest2 =>
        if i = '>' then some ([a, b, c1, d, e, f1, g, h], rest2)
        else if i.isDigit then
          match rest2 with
          | j :: rest3 =>
            if j = '>' then some ([a, b, c1, d, e, f1, g, h, i], rest3)
            else none
          | [] => none
        else none
      | [] => none
    else none
  | _ => none

/-- The lazily matched segment `([^<]*?)(?=<|\$)` after a tag: characters up
to the next `<`, the end of the string, or the position just before a final
newline (Python `$` also matches there). -/
def takeSegment : List Char → List Char × List Char
  | [] => ([], [])
  | c :: rest =>
    if c = '<' then ([], c :: rest)
    else if c = '\n' ∧ rest = [] then ([], [c])
    else
      let p := takeSegment rest
      (c :: p.1, p.2)

/-- `re.finditer(word_pattern, line)`: all (timestamp text, segment) pairs
in source order; the fuel (the input length suffices) only serves
structural recursion. -/
def wordTokensAux : ℕ → List Char → List (List Char × List Char)
  | 0, _ => []
  | fuel + 1, cs =>
    match tryWordTag cs with
    | some (ts, rest) =>
      let p := takeSegment rest
      (ts, p.1) :: wordTokensAux fuel p.2
    | none =>
      match cs with
      | [] => []
      | _ :: rest => wordTokensAux fuel rest

/-- All word-pattern matches of a line. -/
def wordTokens (l : List Char) : List (List Char × List Char) :=
  wordTokensAux l.length l

/-- The timestamp of a tag, as the code computes it:
`LRCParser.parse_timestamp(f'<{timestamp_str}>')`. -/
def wordTs (tsText : List Char) : ℚ := parse_timestamp ⟨'<' :: (tsText ++ ['>'])⟩

/-- Set the end timestamp of the last word, if any (the effect of
`last_word.end_timestamp = ts` on the accumulated list). -/
def updateLast : List LyricWord → ℚ → List LyricWord
  | [], _ => []
  | [w], ts => [{ w with end_timestamp := some ts }]
  | w :: rest, ts => w :: updateLast rest ts

/-- The loop of `parse_precise_lrc_line` (lines 94-110): an empty segment
attaches the tag's time as the previous word's end timestamp; a non-empty
segment appends a new word. -/
def buildWordsAux : List LyricWord → List (List Char × List Char) → List LyricWord
  | acc, [] => acc
  | acc, (ts, seg) :: rest =>
    if seg = [] then buildWordsAux (updateLast acc (wordTs ts)) rest
    else buildWordsAux (acc ++ [⟨wordTs ts, seg, none⟩]) rest

/-- Embedding of `LRCParser.parse_precise_lrc_line` (`lrc-player.py`
lines 85-114): parse all word tags, fold them into words, and return the
first word's timestamp (`0.0` when there are no words) with the words. -/
def parse_precise_lrc_line (line : String) : ℚ × List LyricWord :=
  let words := buildWordsAux [] (wordTokens line.data)
  (match words with
   | [] => 0
   | w :: _ => w.timestamp, words)

/-- Claim-level description of the end marker for one word: the time of the
last empty-segment tag directly following it (before the next non-empty
tag), if any. -/
def endFor (rest : List (List Char × List Char)) : Option ℚ :=
  ((rest.takeWhile (fun t => t.2 = [])).map (fun t => wordTs t.1)).getLast?

/-- Claim-level word list: each tag with non-empty text yields one word, in
source order, whose end timestamp is the last directly following
empty-segment tag's time; empty-segment tags yield no words. -/
def specWords : List (List Char × List Char) → List LyricWord
  | [] => []
  | (ts, seg) :: rest =>
    if seg = [] then specWords rest
    else ⟨wordTs ts, seg, endFor rest⟩ :: specWords rest

/-- Apply an optional end timestamp to the last accumulated word. -/
def patchEnd (ws : List LyricWord) : Option ℚ → List LyricWord
  | none => ws
  | some ts => updateLast ws ts

theorem natDigitsAux_congr (n : ℕ) :
    ∀ f1 f2, n < f1 → n < f2 → natDigitsAux f1 n = natDigitsAux f2 n := by
  induction n using Nat.strong_induction_on with
  | _ n ih =>
    intro f1 f2 h1 h2
    match f1, f2 with
    | g1 + 1, g2 + 1 =>
      rw [natDigitsAux, natDigitsAux]
      by_cases h10 : n < 10
      · simp [h10]
      · simp only [h10, if_false]
        have hdiv : n / 10 < n := Nat.div_lt_self (by omega) (by omega)
        rw [ih (n / 10) hdiv g1 g2 (by omega) (by omega)]

theorem natDigits_step (n : ℕ) :
    natDigits n =
      if n < 10 then [Char.ofNat (48 + n)]
      else natDigits (n / 10) ++ [Char.ofNat (48 + n % 10)] := by
  rw [natDigits, natDigitsAux]
  by_cases h10 : n < 10
  · simp [h10]
  · simp only [h10, if_false]
    have hdiv : n / 10 < n := Nat.div_lt_self (by omega) (by omega)
    rw [natDigitsAux_congr (n / 10) n (n / 10 + 1) hdiv (by omega)]
    rfl

theorem natDigits_ne_nil (n : ℕ) : natDigits n ≠ [] := by
  rw [natDigits_step]
  split
  · simp
  · simp

theorem natDigits_length_le (p n : ℕ) (hp : 1 ≤ p) (hn : n < 10 ^ p) :
    (natDigits n).length ≤ p := by
  induction p generalizing n with
  | zero => omega
  | succ p ih =>
    rw [natDigits_step]
    split
    · simp
    · rename_i h
      rw [List.length_append]
      have hp1 : 1 ≤ p := by
        by_contra hc
        have : p = 0 := by omega
        subst this
        simp at hn
        omega
      have hdiv : n / 10 < 10 ^ p := by
        rw [Nat.div_lt_iff_lt_mul (by omega)]
        calc n < 10 ^ (p + 1) := hn
        _ = 10 ^ p * 10 := by ring
      have := ih (n / 10) hp1 hdiv
      simp only [List.length_cons, List.length_nil]
      omega

theorem natDigits_length_pos (n : ℕ) : 1 ≤ (natDigits n).length := by
  have := natDigits_ne_nil n
  cases h : natDigits n with
  | nil => exact absurd h this
  | cons a l => simp

theorem padNum_length (w n : ℕ) (hw : 1 ≤ w) (hn : n < 10 ^ w) :
    (padNum w n).length = w := by
  have h1 := natDigits_length_le w n hw hn
  simp only [padNum, String.length]
  simp only [List.length_append, List.length_replicate]
  omega

/-- C5 counterexample — at input `0.125` seconds the code's Python `round`
(half to even) yields centisecond count `12`, while rounding the sub-second
component half-up as the claim states would yield `13`: the rendered text is
`00:00.12`, not `00:00.13`. -/
theorem C5_half_up_counterexample :
    fmt_lrc_time (1/8) = "00:00.12" ∧ roundHalfUp ((1/8 : ℚ) * 100) = 13 ∧
      ("00:00.12" : String) ≠ "00:00.13" := by
  refine ⟨?_, by norm_num [roundHalfUp], by decide⟩
  unfold fmt_lrc_time
  norm_num [pyRound]
  decide

/-- C5 (amended): for every seconds value, `fmt_lrc_time` clamps negative
input to zero, converts to centiseconds with Python `round` (round half to
even — not half-up), and renders unbounded minutes, a colon, two zero-padded
second digits, a dot, and two zero-padded centisecond digits; `3600` seconds
renders with minutes field `60`. -/
theorem C5_format_postcondition (q : ℚ) :
    fmt_lrc_time q =
        padNum 2 ((pyRound (max 0 q * 100)).toNat / 6000) ++ ":" ++
        padNum 2 ((pyRound (max 0 q * 100)).toNat % 6000 / 100) ++ "." ++
        padNum 2 ((pyRound (max 0 q * 100)).toNat % 100) ∧
      fmt_lrc_time q = fmt_lrc_time (max 0 q) ∧
      (pyRound (max 0 q * 100)).toNat % 6000 / 100 < 60 ∧
      (pyRound (max 0 q * 100)).toNat % 100 < 100 ∧
      (pyRound (max 0 q * 100)).toNat / 6000 * 6000 +
        (pyRound (max 0 q * 100)).toNat % 6000 / 100 * 100 +
        (pyRound (max 0 q * 100)).toNat % 100 = (pyRound (max 0 q * 100)).toNat ∧
      (padNum 2 ((pyRound (max 0 q * 100)).toNat % 6000 / 100)).length = 2 ∧
      (padNum 2 ((pyRound (max 0 q * 100)).toNat % 100)).length = 2 ∧
      fmt_lrc_time 3600 = "60:00.00" := by
  have hmax : (if q < 0 then (0:ℚ) else q) = max 0 q := by
    rcases lt_or_le q 0 with h | h
    · simp [h, max_eq_left h.le]
    · simp [not_lt.mpr h, max_eq_right h]
  have hmax2 : (if max 0 q < 0 then (0:ℚ) else max 0 q) = max 0 q := by
    have : ¬ max 0 q < 0 := not_lt.mpr (le_max_left 0 q)
    simp [this]
  set n : ℕ := (pyRound (max 0 q * 100)).toNat with hn
  have hm6000 : n % 6000 < 6000 := Nat.mod_lt _ (by norm_num)
  have hsec : n % 6000 / 100 < 60 := by
    rw [Nat.div_lt_iff_lt_mul (by norm_num)]
    omega
  have hcs : n % 100 < 100 := Nat.mod_lt _ (by norm_num)
  refine ⟨?_, ?_, hsec, hcs, ?_, ?_, ?_, ?_⟩
  · simp only [fmt_lrc_time, hmax, ← hn]
  · simp only [fmt_lrc_time, hmax, hmax2]
  · have ha := Nat.div_add_mod n 6000
    have hb := Nat.div_add_mod (n % 6000) 100
    have hc : n % 6000 % 100 = n % 100 := Nat.mod_mod_of_dvd n (by norm_num)
    omega
  · exact padNum_length 2 _ (by norm_num) (by omega)
  · exact padNum_length 2 _ (by norm_num) (by omega)
  · unfold fmt_lrc_time
    norm_num [pyRound]
    decide

/-- C6: while playing, the position query returns
`max 0 (now - start_wall_time - accumulated_pause_duration + seek_correction)`;
while paused, the query is independent of `now` — it is frozen at the value
computed with the recorded pause instant in place of `now`. -/
theorem C6_playback_clock (st : ClockState) (now now2 : ℚ) :
    get_playback_position st now =
      max 0 ((if st.is_paused then st.pause_start_time else now) -
        st.start_time - st.total_pause_time + st.seek_offset) ∧
    (st.is_paused = true →
      get_playback_position st now = get_playback_position st now2 ∧
      get_playback_position st now =
        max 0 (st.pause_start_time - st.start_time - st.total_pause_time +
          st.seek_offset)) := by
  constructor
  · cases h : st.is_paused <;> simp [get_playback_position, h]
  · intro h
    simp [get_playback_position, h]

/-- C6 witness: a concrete paused state at pause instant 30, started at 2,
with 3 seconds of accumulated pause and a seek correction of 1; every query
returns 26 regardless of the current time. -/
theorem C6_playback_clock_witness :
    get_playback_position ⟨true, 30, 2, 3, 1⟩ 100 =
        max 0 ((30 : ℚ) - 2 - 3 + 1) ∧
      get_playback_position ⟨true, 30, 2, 3, 1⟩ 100 =
        get_playback_position ⟨true, 30, 2, 3, 1⟩ 555 := by
  have h := C6_playback_clock ⟨true, 30, 2, 3, 1⟩ 100 555
  exact ⟨(h.2 rfl).2, (h.2 rfl).1⟩

theorem seek_audio_target_eq (cur delta d : ℚ) (hd : 0 < d) :
    seek_audio_target cur delta (some d) =
      min (max (cur + delta) 0) (max 0 (d - 2)) := by
  simp only [seek_audio_target, hd, if_true, gt_iff_lt]
  rcases lt_or_le (cur + delta) 0 with h1 | h1
  · have hmax : max (cur + delta) 0 = 0 := max_eq_right h1.le
    have hng : ¬ (0:ℚ) > max 0 (d - 2) := not_lt.mpr (le_max_left 0 (d - 2))
    simp [h1, hmax, hng, min_eq_left (le_max_left 0 (d - 2))]
  · have hmax : max (cur + delta) 0 = cur + delta := max_eq_left h1
    simp only [not_lt.mpr h1, if_false, hmax]
    rcases lt_or_le (max 0 (d - 2)) (cur + delta) with h2 | h2
    · simp [h2, min_eq_right h2.le]
    · simp [not_lt.mpr h2, min_eq_left h2]

/-- C7: for every seek by `delta` seconds from current position on a track
with a known positive duration, the target is `current + delta` clamped below
by `0` and above by `max 0 (duration - 2)`; when the duration is at least the
2-second guard, the target lies in `[0, duration - 2]`; seeking by `+10000`
seconds on a track of duration `200` yields exactly `198`. -/
theorem C7_seek_clamping (cur delta d : ℚ) (hd : 0 < d) :
    seek_audio_target cur delta (some d) =
        min (max (cur + delta) 0) (max 0 (d - 2)) ∧
      (2 ≤ d → 0 ≤ seek_audio_target cur delta (some d) ∧
        seek_audio_target cur delta (some d) ≤ d - 2) ∧
      (0 ≤ cur → seek_audio_target cur 10000 (some 200) = 198) := by
  have hform := seek_audio_target_eq cur delta d hd
  refine ⟨hform, ?_, ?_⟩
  · intro h2
    rw [hform]
    constructor
    · exact le_min (le_max_right _ 0) (le_max_left 0 _)
    · have hmx : max 0 (d - 2) = d - 2 := max_eq_right (by linarith)
      calc min (max (cur + delta) 0) (max 0 (d - 2)) ≤ max 0 (d - 2) :=
            min_le_right _ _
        _ = d - 2 := hmx
  · intro hcur
    have h := seek_audio_target_eq cur 10000 200 (by norm_num)
    rw [h]
    have h1 : max (cur + 10000) 0 = cur + 10000 := max_eq_left (by linarith)
    have h2 : max (0:ℚ) (200 - 2) = 198 := by norm_num
    rw [h1, h2]
    exact min_eq_right (by linarith)

/-- C7 witness: from position `5` with a known duration of `200` seconds,
seeking by `+10000` seconds targets exactly `198` seconds. -/
theorem C7_seek_clamping_witness :
    seek_audio_target 5 10000 (some 200) = 198 := by
  have h := C7_seek_clamping 5 10000 200 (by norm_num)
  exact h.2.2 (by norm_num)

/-- C3: in auto mode, a literal with a decimal point is seconds; otherwise
absolute value above 100 means milliseconds (divided by 1000); otherwise
seconds. -/
theorem C3_offset_unit_auto (raw : String) (val : ℚ)
    (h : pyFloatOfString raw = some val) :
    (raw.data.contains '.' = true → parse_offset_seconds raw "auto" = some val) ∧
      (raw.data.contains '.' = false → 100 < |val| →
        parse_offset_seconds raw "auto" = some (val / 1000)) ∧
      (raw.data.contains '.' = false → |val| ≤ 100 →
        parse_offset_seconds raw "auto" = some val) := by
  refine ⟨?_, ?_, ?_⟩
  · intro hdot
    have hmem : '.' ∈ raw.data := by simpa using hdot
    simp [parse_offset_seconds, h, hmem]
  · intro hdot hmag
    have hmem : '.' ∉ raw.data := by simpa using hdot
    simp [parse_offset_seconds, h, hmem, hmag]
  · intro hdot hmag
    have hmem : '.' ∉ raw.data := by simpa using hdot
    simp [parse_offset_seconds, h, hmem, not_lt.mpr hmag]

theorem digitChar_props (d : ℕ) (hd : d < 10) :
    (digitChar d).isDigit = true ∧ pyIsSpace (digitChar d) = false ∧
      (digitChar d ≠ '_') ∧ (digitChar d ≠ '-') ∧ (digitChar d ≠ '+') ∧
      (digitChar d ≠ ':') ∧ (digitChar d ≠ '.') ∧
      ((['[', ']', '<', '>'] : List Char).contains (digitChar d)) = false ∧
      (digitChar d).toNat - 48 = d := by
  interval_cases d <;> decide

theorem natDigits_digits (n : ℕ) : IsDigitList (natDigits n) := by
  induction n using Nat.strong_induction_on with
  | _ n ih =>
    rw [natDigits_step]
    by_cases h10 : n < 10
    · simp only [h10, if_true]
      intro c hc
      simp at hc
      exact ⟨n, h10, by simp [hc, digitChar]⟩
    · simp only [h10, if_false]
      intro c hc
      rw [List.mem_append] at hc
      rcases hc with hc | hc
      · exact ih (n / 10) (Nat.div_lt_self (by omega) (by omega)) c hc
      · simp at hc
        exact ⟨n % 10, Nat.mod_lt _ (by omega), by simp [hc, digitChar]⟩

theorem padNum_digits (w n : ℕ) : IsDigitList (padNum w n).data := by
  intro c hc
  simp only [padNum] at hc
  rw [List.mem_append] at hc
  rcases hc with hc | hc
  · rw [List.mem_replicate] at hc
    exact ⟨0, by omega, by simp [hc.2, digitChar]⟩
  · exact natDigits_digits n c hc

theorem takeWhile_of_all {p : Char → Bool} :
    ∀ l : List Char, (∀ c ∈ l, p c = true) → l.takeWhile p = l := by
  intro l h
  induction l with
  | nil => rfl
  | cons c rest ih =>
    rw [List.takeWhile_cons, h c (by simp)]
    simp [ih (fun x hx => h x (by simp [hx]))]

theorem dropWhile_of_all {p : Char → Bool} :
    ∀ l : List Char, (∀ c ∈ l, p c = true) → l.dropWhile p = [] := by
  intro l h
  induction l with
  | nil => rfl
  | cons c rest ih =>
    rw [List.dropWhile_cons, h c (by simp)]
    simp [ih (fun x hx => h x (by simp [hx]))]

theorem digitsTail_of_digits : ∀ l, IsDigitList l → digitsTail l = true := by
  intro l h
  induction l with
  | nil => rfl
  | cons c rest ih =>
    obtain ⟨d, hd, hc⟩ := h c (by simp)
    have hdig : c.isDigit = true := by rw [hc]; exact (digitChar_props d hd).1
    have hstep : digitsTail (c :: rest) = digitsTail rest := by
      rw [digitsTail.eq_def]
      simp [hdig]
    rw [hstep]
    exact ih (fun x hx => h x (by simp [hx]))

theorem filter_no_underscore : ∀ l, IsDigitList l →
    l.filter (fun x => x ≠ '_') = l := by
  intro l h
  induction l with
  | nil => rfl
  | cons c rest ih =>
    obtain ⟨d, hd, hc⟩ := h c (by simp)
    have hne2 : c ≠ '_' := by rw [hc]; exact (digitChar_props d hd).2.2.1
    have hdec : (decide (c ≠ '_')) = true := by simp [hne2]
    rw [List.filter_cons, hdec]
    simp only [if_true]
    rw [ih (fun x hx => h x (by simp [hx]))]

theorem takeDigitPart_of_digits (l : List Char) (h : IsDigitList l)
    (hne : l ≠ []) : takeDigitPart l = some (digitsVal l, l.length, []) := by
  match l, hne with
  | c :: rest, _ =>
    obtain ⟨d, hd, hc⟩ := h c (by simp)
    have hdig : c.isDigit = true := by rw [hc]; exact (digitChar_props d hd).1
    have hall : ∀ x ∈ c :: rest, (x.isDigit || x = '_') = true := by
      intro x hx
      obtain ⟨d2, hd2, hx2⟩ := h x hx
      rw [hx2, (digitChar_props d2 hd2).1]
      simp
    rw [takeDigitPart]
    simp only [hdig, if_true]
    rw [takeWhile_of_all _ hall, dropWhile_of_all _ hall,
      digitsTail_of_digits _ h]
    simp only [if_true]
    rw [filter_no_underscore _ h]

theorem difference_toNat_digitChar (d : ℕ) (hd : d < 10) :
    (digitChar d).toNat - 48 = d := (digitChar_props d hd).2.2.2.2.2.2.2.2

theorem digitsVal_concat (a : List Char) (c : Char) :
    digitsVal (a ++ [c]) = 10 * digitsVal a + (c.toNat - 48) := by
  simp [digitsVal, List.foldl_append]

theorem digitsVal_natDigits (n : ℕ) : digitsVal (natDigits n) = n := by
  induction n using Nat.strong_induction_on with
  | _ n ih =>
    rw [natDigits_step]
    by_cases h10 : n < 10
    · simp only [h10, if_true]
      have : digitsVal [Char.ofNat (48 + n)] = (Char.ofNat (48 + n)).toNat - 48 := by
        simp [digitsVal]
      rw [this]
      exact difference_toNat_digitChar n h10
    · simp only [h10, if_false]
      rw [digitsVal_concat, ih (n / 10) (Nat.div_lt_self (by omega) (by omega))]
      have : (Char.ofNat (48 + n % 10)).toNat - 48 = n % 10 :=
        difference_toNat_digitChar (n % 10) (Nat.mod_lt _ (by omega))
      rw [this]
      omega

theorem digitsVal_replicate_zero (k : ℕ) (l : List Char) :
    digitsVal (List.replicate k '0' ++ l) = digitsVal l := by
  induction k with
  | zero => simp
  | succ k ih =>
    rw [List.replicate_succ, List.cons_append]
    show digitsVal ('0' :: (List.replicate k '0' ++ l)) = digitsVal l
    rw [digitsVal, List.foldl_cons]
    show digitsVal (List.replicate k '0' ++ l) = digitsVal l
    exact ih

theorem digitsVal_padNum (w n : ℕ) : digitsVal (padNum w n).data = n := by
  show digitsVal (List.replicate _ '0' ++ natDigits n) = n
  rw [digitsVal_replicate_zero, digitsVal_natDigits]

theorem pyStrip_of_digits (l : List Char) (h : IsDigitList l) :
    pyStrip ⟨l⟩ = ⟨l⟩ := by
  rcases l with _ | ⟨c, rest⟩
  · rfl
  · obtain ⟨d, hd, hc⟩ := h c (by simp)
    have hs : pyIsSpace c = false := by rw [hc]; exact (digitChar_props d hd).2.1
    show (⟨((List.dropWhile pyIsSpace (c :: rest)).reverse.dropWhile
      pyIsSpace).reverse⟩ : String) = ⟨c :: rest⟩
    rw [List.dropWhile_cons, hs]
    simp only [Bool.false_eq_true, if_false]
    rcases List.eq_nil_or_concat (c :: rest) with hnil | ⟨l2, a, hconcat⟩
    · simp at hnil
    · rw [List.concat_eq_append] at hconcat
      rw [hconcat, List.reverse_append]
      obtain ⟨d2, hd2, ha⟩ := h a (by rw [hconcat]; simp)
      have hs2 : pyIsSpace a = false := by
        rw [ha]; exact (digitChar_props d2 hd2).2.1
      simp only [List.reverse_cons, List.reverse_nil, List.nil_append,
        List.singleton_append, List.dropWhile_cons, hs2]
      simp

theorem pyIntOfString_digits (l : List Char) (h : IsDigitList l)
    (hne : l ≠ []) : pyIntOfString ⟨l⟩ = some ((digitsVal l : ℕ) : ℤ) := by
  rw [pyIntOfString, pyStrip_of_digits l h]
  match l, hne with
  | c :: rest, _ =>
    obtain ⟨d, hd, hc⟩ := h c (by simp)
    have hsign : splitSign (String.data ⟨c :: rest⟩) = (false, c :: rest) := by
      show splitSign (c :: rest) = (false, c :: rest)
      rw [splitSign]
      have h1 : c ≠ '-' := by rw [hc]; exact (digitChar_props d hd).2.2.2.1
      have h2 : c ≠ '+' := by rw [hc]; exact (digitChar_props d hd).2.2.2.2.1
      simp [h1, h2]
    rw [hsign]
    rw [takeDigitPart_of_digits (c :: rest) h (by simp)]
    simp

theorem not_mem_digit_list (l : List Char) (h : IsDigitList l) {c : Char}
    (hc : ∀ d, d < 10 → digitChar d ≠ c) : c ∉ l := by
  intro hmem
  obtain ⟨d, hd, he⟩ := h c hmem
  exact hc d hd he.symm

theorem splitChar_of_not_mem (sep : Char) :
    ∀ l : List Char, sep ∉ l → splitChar sep l = [l] := by
  intro l h
  induction l with
  | nil => rfl
  | cons c rest ih =>
    have hcs : ¬ (c = sep) := fun he => h (by simp [he])
    rw [splitChar]
    simp only [hcs, if_false]
    rw [ih (fun hmem => h (by simp [hmem]))]

theorem splitChar_append_sep (sep : Char) :
    ∀ a b : List Char, sep ∉ a →
      splitChar sep (a ++ sep :: b) = a :: splitChar sep b := by
  intro a b ha
  induction a with
  | nil => simp [splitChar]
  | cons c a2 ih =>
    have hcs : ¬ (c = sep) := fun he => ha (by simp [he])
    rw [List.cons_append, splitChar]
    simp only [hcs, if_false]
    rw [ih (fun hmem => ha (by simp [hmem]))]

theorem pyStripChars_bracket_digits (mid : List Char) (s : String)
    (hs : s.data = '[' :: (mid ++ [']']))
    (hhead : ∃ d t, d < 10 ∧ mid = digitChar d :: t)
    (hlast : ∃ d t, d < 10 ∧ mid = t ++ [digitChar d]) :
    pyStripChars ['[', ']', '<', '>'] s = ⟨mid⟩ := by
  rw [pyStripChars, hs]
  obtain ⟨d1, t1, hd1, he1⟩ := hhead
  obtain ⟨d2, t2, hd2, he2⟩ := hlast
  rw [List.dropWhile_cons]
  have hopen : ((['[', ']', '<', '>'] : List Char).contains '[') = true := by decide
  simp only [hopen, if_true]
  have hmid1 : List.dropWhile (['[', ']', '<', '>'] : List Char).contains
      (mid ++ [']']) = mid ++ [']'] := by
    rw [he1, List.cons_append, List.dropWhile_cons]
    have hnd : ((['[', ']', '<', '>'] : List Char).contains (digitChar d1)) = false :=
      (digitChar_props d1 hd1).2.2.2.2.2.2.2.1
    simp only [hnd, Bool.false_eq_true, if_false]
  rw [hmid1, List.reverse_append]
  have hclose : ((['[', ']', '<', '>'] : List Char).contains ']') = true := by
    decide
  simp only [List.reverse_cons, List.reverse_nil, List.nil_append,
    List.singleton_append, List.dropWhile_cons, hclose, if_true]
  have hmid2 : List.dropWhile (['[', ']', '<', '>'] : List Char).contains
      mid.reverse = mid.reverse := by
    rw [he2, List.reverse_append]
    simp only [List.reverse_cons, List.reverse_nil, List.nil_append,
      List.singleton_append, List.dropWhile_cons]
    have hnd : ((['[', ']', '<', '>'] : List Char).contains (digitChar d2)) = false :=
      (digitChar_props d2 hd2).2.2.2.2.2.2.2.1
    simp only [hnd, Bool.false_eq_true, if_false]
  rw [hmid2, List.reverse_reverse]

/-- C9: the player's timestamp parser is total: it returns `0.0` when the
bracket-stripped input has no colon, returns `0.0` whenever the component
extraction raises (modelled by the `try` body returning `none`), and on a
well-formed `mm:ss.fff` input returns `minutes*60 + seconds + ms/1000`. -/
theorem C9_player_timestamp_total :
    (∀ s : String,
        ((pyStripChars ['[', ']', '<', '>'] s).data.contains ':') = false →
        parse_timestamp s = 0) ∧
      (∀ s : String,
        tryTimestampBody (pyStripChars ['[', ']', '<', '>'] s).data = none →
        parse_timestamp s = 0) ∧
      (∀ m sec ms : ℕ, m < 100 → sec < 100 → ms < 1000 →
        parse_timestamp
            ("[" ++ padNum 2 m ++ ":" ++ padNum 2 sec ++ "." ++
              padNum 3 ms ++ "]") =
          (m : ℚ) * 60 + (sec : ℚ) + (ms : ℚ) / 1000) := by
  refine ⟨?_, ?_, ?_⟩
  · intro s h
    have hmem : ':' ∉ (pyStripChars ['[', ']', '<', '>'] s).data := by
      simpa using h
    simp [parse_timestamp, hmem]
  · intro s h
    by_cases hc : ':' ∈ (pyStripChars ['[', ']', '<', '>'] s).data
    · simp [parse_timestamp, hc, h]
    · simp [parse_timestamp, hc]
  · intro m sec ms hm hs hms
    set M := (padNum 2 m).data with hM
    set S := (padNum 2 sec).data with hS
    set F := (padNum 3 ms).data with hF
    have hdM : IsDigitList M := padNum_digits 2 m
    have hdS : IsDigitList S := padNum_digits 2 sec
    have hdF : IsDigitList F := padNum_digits 3 ms
    have hLM : M.length = 2 := padNum_length 2 m (by norm_num) (by omega)
    have hLS : S.length = 2 := padNum_length 2 sec (by norm_num) (by omega)
    have hLF : F.length = 3 := padNum_length 3 ms (by norm_num) (by omega)
    have hMne : M ≠ [] := by intro he; rw [he] at hLM; simp at hLM
    have hSne : S ≠ [] := by intro he; rw [he] at hLS; simp at hLS
    have hFne : F ≠ [] := by intro he; rw [he] at hLF; simp at hLF
    -- decompose the full string into '[' :: mid ++ [']']
    set mid : List Char := M ++ ':' :: (S ++ '.' :: F) with hmid
    have hdata : ("[" ++ padNum 2 m ++ ":" ++ padNum 2 sec ++ "." ++
          padNum 3 ms ++ "]").data = '[' :: (mid ++ [']']) := by
      simp only [String.data_append, hmid, ← hM, ← hS, ← hF]
      show ['['] ++ M ++ [':'] ++ S ++ ['.'] ++ F ++ [']'] = _
      simp
    obtain ⟨c, t, hMct⟩ : ∃ c t, M = c :: t := by
      cases hMc : M with
      | nil => exact absurd hMc hMne
      | cons c t => exact ⟨c, t, rfl⟩
    obtain ⟨d1, hd1, hc1⟩ := hdM c (by rw [hMct]; simp)
    obtain ⟨F2, a, hFc⟩ : ∃ F2 a, F = F2 ++ [a] := by
      rcases List.eq_nil_or_concat F with hnil | ⟨F2, a, hcat⟩
      · exact absurd hnil hFne
      · exact ⟨F2, a, by rw [hcat, List.concat_eq_append]⟩
    obtain ⟨d2, hd2, hc2⟩ := hdF a (by rw [hFc]; simp)
    have hstrip : pyStripChars ['[', ']', '<', '>']
        ("[" ++ padNum 2 m ++ ":" ++ padNum 2 sec ++ "." ++
          padNum 3 ms ++ "]") = ⟨mid⟩ := by
      apply pyStripChars_bracket_digits mid _ hdata
      · exact ⟨d1, t ++ ':' :: (S ++ '.' :: F), hd1, by
          rw [hmid, hMct, hc1]; rfl⟩
      · refine ⟨d2, M ++ ':' :: (S ++ '.' :: F2), hd2, ?_⟩
        rw [hmid, hFc, hc2]
        simp
    have hcolon : ((⟨mid⟩ : String).data.contains ':') = true := by
      apply List.elem_eq_true_of_mem
      show ':' ∈ mid
      rw [hmid]
      exact List.mem_append_right _ (by simp)
    -- the component strings contain no separators
    have hMnc : ':' ∉ M :=
      not_mem_digit_list M hdM (fun d hd => (digitChar_props d hd).2.2.2.2.2.1)
    have hSnc : ':' ∉ S :=
      not_mem_digit_list S hdS (fun d hd => (digitChar_props d hd).2.2.2.2.2.1)
    have hFnc : ':' ∉ F :=
      not_mem_digit_list F hdF (fun d hd => (digitChar_props d hd).2.2.2.2.2.1)
    have hSnd : '.' ∉ S :=
      not_mem_digit_list S hdS (fun d hd => (digitChar_props d hd).2.2.2.2.2.2.1)
    have hFnd : '.' ∉ F :=
      not_mem_digit_list F hdF (fun d hd => (digitChar_props d hd).2.2.2.2.2.2.1)
    have hsp1 : splitChar ':' mid = [M, S ++ '.' :: F] := by
      rw [hmid, splitChar_append_sep ':' M _ hMnc,
        splitChar_of_not_mem ':' (S ++ '.' :: F) (by
          intro hmem
          rcases List.mem_append.mp hmem with hin | hin
          · exact hSnc hin
          · rcases List.mem_cons.mp hin with he | hin
            · exact absurd he (by decide)
            · exact hFnc hin)]
    have hsp2 : splitChar '.' (S ++ '.' :: F) = [S, F] := by
      rw [splitChar_append_sep '.' S F hSnd, splitChar_of_not_mem '.' F hFnd]
    have hljust : (pyLjust F 3 '0').take 3 = F := by
      rw [pyLjust, hLF]
      simp only [Nat.sub_self, List.replicate_zero, List.append_nil]
      rw [← hLF, List.take_length]
    have htry : tryTimestampBody mid =
        some ((((m : ℕ) : ℤ) : ℚ) * 60 + (((sec : ℕ) : ℤ) : ℚ) +
          (((ms : ℕ) : ℤ) : ℚ) / 1000) := by
      rw [tryTimestampBody, hsp1]
      have h1 : pyIntOfString ⟨M⟩ = some ((m : ℕ) : ℤ) := by
        rw [pyIntOfString_digits M hdM hMne, hM, digitsVal_padNum]
      have h2 : pyIntOfString ⟨S⟩ = some ((sec : ℕ) : ℤ) := by
        rw [pyIntOfString_digits S hdS hSne, hS, digitsVal_padNum]
      have h3 : pyIntOfString ⟨(pyLjust F 3 '0').take 3⟩ = some ((ms : ℕ) : ℤ) := by
        rw [hljust, pyIntOfString_digits F hdF hFne, hF, digitsVal_padNum]
      simp only [h1, hsp2, h2, h3]
    have hval : parse_timestamp
        ("[" ++ padNum 2 m ++ ":" ++ padNum 2 sec ++ "." ++
          padNum 3 ms ++ "]") =
        (((m : ℕ) : ℤ) : ℚ) * 60 + (((sec : ℕ) : ℤ) : ℚ) +
          (((ms : ℕ) : ℤ) : ℚ) / 1000 := by
      rw [parse_timestamp]
      simp only [hstrip, hcolon, if_true, htry]
    rw [hval]
    push_cast
    ring

/-- C9 witness: the well-formed timestamp `[01:02.345]` parses to
`62.345` seconds, and an input with no colon parses to `0`. -/
theorem C9_player_timestamp_total_witness :
    parse_timestamp "[01:02.345]" = (1 : ℚ) * 60 + (2 : ℚ) + (345 : ℚ) / 1000 ∧
      parse_timestamp "hello" = 0 := by
  constructor
  · have h := C9_player_timestamp_total.2.2 1 2 345 (by norm_num) (by norm_num)
      (by norm_num)
    have hstr : ("[" ++ padNum 2 1 ++ ":" ++ padNum 2 2 ++ "." ++
        padNum 3 345 ++ "]") = "[01:02.345]" := by decide
    rw [hstr] at h
    exact h
  · exact C9_player_timestamp_total.1 "hello" (by decide)

theorem isDigit_not_space {c : Char} (h : c.isDigit = true) :
    pyIsSpace c = false := by
  simp only [Char.isDigit, Bool.and_eq_true, decide_eq_true_eq] at h
  obtain ⟨h1, h2⟩ := h
  have hb1 : 48 ≤ c.toNat := h1
  have hb2 : c.toNat ≤ 57 := h2
  simp only [pyIsSpace, Bool.or_eq_false_iff, Bool.and_eq_false_iff,
    decide_eq_false_iff_not]
  omega

theorem pyStrip_no_space (l : List Char) (h : ∀ c ∈ l, pyIsSpace c = false) :
    pyStrip ⟨l⟩ = ⟨l⟩ := by
  rcases l with _ | ⟨c, rest⟩
  · rfl
  · show (⟨((List.dropWhile pyIsSpace (c :: rest)).reverse.dropWhile
      pyIsSpace).reverse⟩ : String) = ⟨c :: rest⟩
    rw [List.dropWhile_cons, h c (by simp)]
    simp only [Bool.false_eq_true, if_false]
    rcases List.eq_nil_or_concat (c :: rest) with hnil | ⟨l2, a, hconcat⟩
    · simp at hnil
    · rw [List.concat_eq_append] at hconcat
      rw [hconcat, List.reverse_append]
      have hs2 : pyIsSpace a = false := h a (by rw [hconcat]; simp)
      simp only [List.reverse_cons, List.reverse_nil, List.nil_append,
        List.singleton_append, List.dropWhile_cons, hs2]
      simp

theorem cleanTimeChars_members (l : List Char) :
    ∀ c ∈ cleanTimeChars l, (c.isDigit || c = '.' || c = ':') = true := by
  intro c hc
  exact (List.mem_filter.mp hc).2

theorem cleanTimeChars_idem (l : List Char) :
    cleanTimeChars (cleanTimeChars l) = cleanTimeChars l := by
  apply List.filter_eq_self.mpr
  exact cleanTimeChars_members l

theorem cleanTimeChars_no_space (l : List Char) :
    ∀ c ∈ cleanTimeChars l, pyIsSpace c = false := by
  intro c hc
  have h := cleanTimeChars_members l c hc
  simp only [Bool.or_eq_true, decide_eq_true_eq] at h
  rcases h with (hd | he) | he
  · exact isDigit_not_space hd
  · rw [he]; decide
  · rw [he]; decide

/-- Inputs whose characters are already clean, nonempty, and unparsable are
fixpoints of the retry loop: the recursion never returns, for any fuel. -/
theorem parse_time_stuck (l : List Char) (hne : l ≠ [])
    (hcl : cleanTimeChars l = l)
    (hfail : tryParseTimeParts (splitChar ':' l) = none) :
    ∀ f, parse_time_to_seconds f ⟨l⟩ = none := by
  have hstr : pyStrip ⟨l⟩ = ⟨l⟩ := by
    apply pyStrip_no_space
    intro c hc
    exact cleanTimeChars_no_space l c (by rw [hcl]; exact hc)
  intro f
  induction f with
  | zero => rfl
  | succ f ih =>
    rw [parse_time_to_seconds]
    simp only [hne, if_false, hstr, hfail, hcl]
    simp [hne, ih]

/-- C4 counterexample — on input `"."` both the original and the cleaned
string fail to parse, and cleaning is a fixpoint, so the Python function
recurses forever and raises `RecursionError` at the interpreter's default
limit of 1000 frames; it neither returns `0` nor avoids raising. -/
theorem C4_retry_counterexample : parse_time_to_seconds 1000 "." = none := by
  have h := parse_time_stuck ['.'] (by decide) (by decide) (by decide)
  exact h 1000

/-- C4 (amended): on malformed input the parser strips characters other
than digits, colons and dots and retries recursively, not just once; with
at least two units of fuel the result is `parseTimeResult`: the value of the
first successful parse, `0` when the cleaned string is empty, and — because
cleaning is idempotent — nontermination (`RecursionError`, modelled `none`)
when the cleaned string also fails to parse; the parser therefore does raise
for some inputs. -/
theorem C4_parse_time_fallback (ts : String) (fuel : ℕ) (hf : 2 ≤ fuel) :
    parse_time_to_seconds fuel ts = parseTimeResult ts ∧
      (parseTimeResult ts = none →
        ∀ f, parse_time_to_seconds f ts = none) := by
  have hkey : ∀ g, 1 ≤ g → parse_time_to_seconds (g + 1) ts = parseTimeResult ts := by
    intro g hg
    rw [parse_time_to_seconds, parseTimeResult]
    by_cases hempty : ts.data = []
    · simp [hempty]
    · simp only [hempty, if_false]
      cases h1 : tryParseTimeParts (splitChar ':' (pyStrip ts).data) with
      | some v => rfl
      | none =>
        simp only []
        by_cases hcl : cleanTimeChars (pyStrip ts).data = []
        · simp [hcl]
        · simp only [hcl, if_false]
          set cl := cleanTimeChars (pyStrip ts).data with hcldef
          have hclean : cleanTimeChars cl = cl := cleanTimeChars_idem _
          have hstr : pyStrip ⟨cl⟩ = ⟨cl⟩ :=
            pyStrip_no_space cl (cleanTimeChars_no_space _)
          cases h2 : tryParseTimeParts (splitChar ':' cl) with
          | some v =>
            match g, hg with
            | g2 + 1, _ =>
              rw [parse_time_to_seconds]
              simp only [hcl, hstr, h2]
              simp [hcl]
          | none =>
            exact parse_time_stuck cl hcl hclean h2 g
  constructor
  · match fuel, hf with
    | g + 1, _ => exact hkey g (by omega)
  · intro hnone f
    match f with
    | 0 => rfl
    | g + 1 =>
      rcases Nat.eq_zero_or_pos g with hg0 | hgpos
      · subst hg0
        rw [parse_time_to_seconds, parseTimeResult] at *
        by_cases hempty : ts.data = []
        · simp [hempty] at hnone
        · simp only [hempty, if_false] at *
          cases h1 : tryParseTimeParts (splitChar ':' (pyStrip ts).data) with
          | some v => simp [h1] at hnone
          | none =>
            simp only [h1] at hnone ⊢
            by_cases hcl : cleanTimeChars (pyStrip ts).data = []
            · simp [hcl] at hnone
            · simp only [hcl, if_false]
              rfl
      · rw [hkey g hgpos]
        exact hnone

/-- C4 witness: `"ab"` fails to parse, cleans to the empty string, and so
returns `0` (with the interpreter's fuel of 1000). -/
theorem C4_parse_time_fallback_witness :
    parse_time_to_seconds 1000 "ab" = some 0 := by
  have h := (C4_parse_time_fallback "ab" 1000 (by norm_num)).1
  rw [h]
  decide

/-- C3 witness: the dot-free literal `300` has magnitude above 100, so in
auto mode it is read as milliseconds and resolves to `0.3` seconds. -/
theorem C3_offset_unit_auto_witness :
    parse_offset_seconds "300" "auto" = some (300 / 1000) := by
  have hr : parseFloatRepr "300" = some ⟨false, 300, 0, 0, false, 0⟩ := by decide
  have h : pyFloatOfString "300" = some 300 := by
    rw [pyFloatOfString, hr]
    norm_num [FloatRepr.val, Option.map]
  exact (C3_offset_unit_auto "300" 300 h).2.1 (by decide) (by norm_num)

/-- C10: when the matched tag's delimiters do not correspond (an opening
`[` closed by `>` or an opening `<` closed by `]`), `apply_offset_to_tag`
returns the matched text unchanged for every offset; consequently the
malformed tag `[00:10.5>` survives a full rebaseline (offset `300` ms)
byte-for-byte while the offset line is still reset. -/
theorem C10_mismatched_delimiters (t : TagMatch) (off : ℚ)
    (h : (t.openBr = '[' ∧ t.closeBr ≠ ']') ∨ (t.openBr = '<' ∧ t.closeBr ≠ '>')) :
    apply_offset_to_tag t off = t.group0 ∧
      process_lrc "[offset:300]\n[00:10.5>" "auto" =
        some "[offset:0]\n[00:10.5>" := by
  constructor
  · rw [apply_offset_to_tag, if_pos h]
  · have hr : parseFloatRepr ⟨['3', '0', '0']⟩ =
        some ⟨false, 300, 0, 0, false, 0⟩ := by decide
    have hfloat : pyFloatOfString ⟨['3', '0', '0']⟩ = some 300 := by
      rw [pyFloatOfString, hr]
      norm_num [FloatRepr.val, Option.map]
    have hu1 : (("auto" : String) = "seconds") = False := by
      simp only [eq_iff_iff, iff_false]
      decide
    have hu2 : (("auto" : String) = "milliseconds") = False := by
      simp only [eq_iff_iff, iff_false]
      decide
    have hdot : ('.' ∈ (⟨['3', '0', '0']⟩ : String).data) = False := by
      simp only [eq_iff_iff, iff_false]
      decide
    have hmag : 100 < |(300 : ℚ)| := by
      rw [abs_of_pos (by norm_num)]
      norm_num
    have hcont : ((['3', '0', '0'] : List Char).contains '.') = false := by
      decide
    have hparse : parse_offset_seconds ⟨['3', '0', '0']⟩ "auto" =
        some (300 / 1000) := by
      simp only [parse_offset_seconds, hfloat, hu1, hu2, hdot, if_false, hmag,
        if_true]
      rw [hcont]
      simp
    have habs : ¬ (|(300 : ℚ) / 1000| < 1 / 1000000000000) := by
      rw [show (300 : ℚ) / 1000 = 3 / 10 by norm_num,
        abs_of_pos (by norm_num : (0:ℚ) < 3 / 10)]
      norm_num
    have hsplit : pySplitlines "[offset:300]\n[00:10.5>" =
        ["[offset:300]", "[00:10.5>"] := by decide
    have hfind : findFirstOffsetVal ["[offset:300]", "[00:10.5>"] =
        some ['3', '0', '0'] := by decide
    simp only [process_lrc, process_lrc_lines, hsplit, hfind, hparse, habs,
      if_false]
    decide

/-- C10 witness: the concrete match of `[00:10.5>` (opening `[`, closing
`>`) is returned unchanged by the tag rewriter at offset `0.3` seconds. -/
theorem C10_mismatched_delimiters_witness :
    apply_offset_to_tag ⟨'[', ['0', '0'], ['1', '0'], ['5'], '>'⟩ (3 / 10) =
      "[00:10.5>".data := by
  have h := C10_mismatched_delimiters
    ⟨'[', ['0', '0'], ['1', '0'], ['5'], '>'⟩ (3 / 10)
    (Or.inl ⟨rfl, by decide⟩)
  rw [h.1]
  decide

theorem int_clamp_eq_max (z : ℤ) : (if z < 0 then (0:ℤ) else z) = max 0 z := by
  rcases lt_or_le z 0 with hz | hz
  · rw [if_pos hz, max_eq_left hz.le]
  · rw [if_neg (not_lt.mpr hz), max_eq_right hz]

theorem pyRound_nonpos {q : ℚ} (hq : q < 0) : pyRound q ≤ 0 := by
  have hf : ⌊q⌋ < 0 := by
    have h1 : ((⌊q⌋ : ℤ) : ℚ) ≤ q := Int.floor_le q
    have h2 : ((⌊q⌋ : ℤ) : ℚ) < 0 := lt_of_le_of_lt h1 hq
    exact_mod_cast h2
  unfold pyRound
  simp only []
  split_ifs <;> omega

theorem takeWhile_length_pos_head (r : List Char) (p : Char → Bool)
    (h : 1 ≤ (r.takeWhile p).length) :
    ∃ c tl, r = c :: tl ∧ p c = true := by
  cases hrc : r with
  | nil => rw [hrc] at h; simp at h
  | cons c tl =>
    refine ⟨c, tl, rfl, ?_⟩
    by_contra hnd
    rw [hrc, List.takeWhile_cons] at h
    simp only [Bool.not_eq_true] at hnd
    rw [hnd] at h
    simp at h

/-- C1: for a matched tag with corresponding delimiters and a nonzero
offset, the rewriter converts the tag to ticks at its own precision, adds
the offset rounded (Python `round`) at that resolution, clamps at zero and
re-renders with exactly the original fractional digit count; a tag already
at zero ticks with a negative offset renders at zero; a match always has a
digit directly after its opening delimiter (so bracketed metadata such as
`[length:...]` is never matched); and every offset line of the processed
output is `[offset:0]`. -/
theorem C1_offset_tag_rewrite (t : TagMatch) (off : ℚ)
    (hdelim : (t.openBr = '[' ∧ t.closeBr = ']') ∨
      (t.openBr = '<' ∧ t.closeBr = '>'))
    (_hoff : off ≠ 0) :
    apply_offset_to_tag t off =
        specRenderTag t.openBr t.closeBr t.fracStr.length
          ((max 0 ((tagTicks t : ℤ) +
            pyRound (off * (10 : ℚ) ^ t.fracStr.length))).toNat) ∧
      (1 ≤ t.fracStr.length →
        (padNum t.fracStr.length
          (((max 0 ((tagTicks t : ℤ) +
            pyRound (off * (10 : ℚ) ^ t.fracStr.length))).toNat) %
            10 ^ t.fracStr.length)).length = t.fracStr.length) ∧
      (tagTicks t = 0 → off < 0 →
        apply_offset_to_tag t off =
          specRenderTag t.openBr t.closeBr t.fracStr.length 0) ∧
      (∀ cs t2 rest, tryMatchAt cs = some (t2, rest) →
        ∃ c2 tl, cs = t2.openBr :: c2 :: tl ∧ c2.isDigit = true) ∧
      (∀ text units ls, process_lrc_lines text units = some ls →
        ∀ l ∈ ls, (matchOffsetLine l.data).isSome → l = "[offset:0]") := by
  have hnotmis : ¬ ((t.openBr = '[' ∧ t.closeBr ≠ ']') ∨
      (t.openBr = '<' ∧ t.closeBr ≠ '>')) := by
    rcases hdelim with ⟨h1, h2⟩ | ⟨h1, h2⟩ <;>
      rintro (⟨ha, hb⟩ | ⟨ha, hb⟩) <;> simp_all
  set p := t.fracStr.length with hp
  have hbase : (if 0 < p then 10 ^ p else 1) = 10 ^ p := by
    rcases Nat.eq_zero_or_pos p with h0 | hpos
    · simp [h0]
    · simp [hpos]
  have hfrac : (if 0 < p then digitsVal t.fracStr else 0) =
      digitsVal t.fracStr := by
    rcases Nat.eq_zero_or_pos p with h0 | hpos
    · have hlen0 : t.fracStr.length = 0 := by rw [← hp]; exact h0
      have hni : t.fracStr = [] := List.length_eq_zero.mp hlen0
      simp [h0, hni, digitsVal]
    · simp [hpos]
  have hcast : (((10 ^ p : ℕ) : ℚ)) = (10 : ℚ) ^ p := by
    push_cast
    ring
  have hmain : apply_offset_to_tag t off =
      specRenderTag t.openBr t.closeBr p
        ((max 0 ((tagTicks t : ℤ) + pyRound (off * (10 : ℚ) ^ p))).toNat) := by
    rw [apply_offset_to_tag, if_neg hnotmis]
    simp only [← hp, hbase, hfrac, hcast, int_clamp_eq_max]
    rw [specRenderTag]
    have hticks : (digitsVal t.mStr * 60 + digitsVal t.sStr) * 10 ^ p +
        digitsVal t.fracStr = tagTicks t := rfl
    rw [hticks]
    set T : ℕ := (max 0 ((tagTicks t : ℤ) +
      pyRound (off * (10 : ℚ) ^ p))).toNat with hT
    have hdivdiv : T / 10 ^ p / 60 = T / (60 * 10 ^ p) := by
      rw [Nat.div_div_eq_div_mul, Nat.mul_comm]
    rw [hdivdiv]
    rcases Nat.eq_zero_or_pos p with h0 | hpos
    · simp [h0]
    · simp [hpos, Nat.pos_iff_ne_zero.mp hpos]
  refine ⟨hmain, ?_, ?_, ?_, ?_⟩
  · intro hp1
    apply padNum_length
    · exact hp1
    · exact Nat.mod_lt _ (Nat.pos_pow_of_pos p (by norm_num))
  · intro hzero hneg
    rw [hmain, hzero]
    have hmul : off * (10 : ℚ) ^ p < 0 :=
      mul_neg_of_neg_of_pos hneg (by positivity)
    have hro := pyRound_nonpos hmul
    have : (max 0 ((0 : ℤ) + pyRound (off * (10 : ℚ) ^ p))).toNat = 0 := by
      simp only [Int.ofNat_zero, zero_add]
      rw [max_eq_left hro]
      rfl
    rw [show ((0 : ℕ) : ℤ) = (0 : ℤ) from rfl, this]
  · intro cs t2 rest h
    match cs with
    | [] => exact absurd h (by simp [tryMatchAt])
    | op :: r =>
      rw [tryMatchAt] at h
      simp only [] at h
      by_cases hob : (op = '[' || op = '<') = true
      · rw [if_pos hob] at h
        by_cases hlen : 1 ≤ (r.takeWhile Char.isDigit).length ∧
            (r.takeWhile Char.isDigit).length ≤ 3
        · rw [if_pos hlen] at h
          obtain ⟨c2, tl, hr, hdig⟩ :=
            takeWhile_length_pos_head r Char.isDigit hlen.1
          have hopen : t2.openBr = op := by
            repeat' split at h
            all_goals try exact Option.noConfusion h
            all_goals simp only [Option.some_inj, Prod.mk.injEq] at h
            all_goals rw [← h.1]
          exact ⟨c2, tl, by rw [hr, hopen], hdig⟩
        · rw [if_neg hlen] at h
          simp at h
      · rw [if_neg hob] at h
        simp at h
  · intro text units ls hls l hl hsome
    rw [process_lrc_lines] at hls
    rcases hfind : findFirstOffsetVal (pySplitlines text) with _ | rawVal
    · simp only [hfind, Option.some_inj] at hls
      subst hls
      obtain ⟨l0, _, hmap⟩ := List.mem_map.mp hl
      rw [← hmap] at hsome ⊢
      rw [zero_offset_line] at hsome ⊢
      by_cases hm : (matchOffsetLine l0.data).isSome
      · rw [if_pos hm]
      · rw [if_neg hm] at hsome
        exact absurd hsome hm
    · simp only [hfind] at hls
      rcases hpar : parse_offset_seconds ⟨rawVal⟩ units with _ | offv
      · simp only [hpar] at hls
        exact Option.noConfusion hls
      · simp only [hpar] at hls
        by_cases hsmall : |offv| < 1 / 1000000000000
        · rw [if_pos hsmall] at hls
          simp only [Option.some_inj] at hls
          subst hls
          obtain ⟨l0, _, hmap⟩ := List.mem_map.mp hl
          rw [← hmap] at hsome ⊢
          rw [zero_offset_line] at hsome ⊢
          by_cases hm : (matchOffsetLine l0.data).isSome
          · rw [if_pos hm]
          · rw [if_neg hm] at hsome
            exact absurd hsome hm
        · rw [if_neg hsmall] at hls
          simp only [Option.some_inj] at hls
          subst hls
          obtain ⟨l0, _, hmap⟩ := List.mem_map.mp hl
          rw [← hmap] at hsome ⊢
          by_cases hm : (matchOffsetLine l0.data).isSome
          · rw [if_pos hm]
          · rw [if_neg hm] at hsome
            exact absurd hsome hm

/-- C1 witness: shifting the tag `[01:02.50]` by `+0.5` seconds renders
`[01:03.00]`: 6250 ticks plus 50 offset ticks, two fractional digits kept. -/
theorem C1_offset_tag_rewrite_witness :
    apply_offset_to_tag (TagMatch.mk '[' ['0', '1'] ['0', '2'] ['5', '0'] ']')
      (1 / 2) = "[01:03.00]".data := by
  have h := (C1_offset_tag_rewrite
    (TagMatch.mk '[' ['0', '1'] ['0', '2'] ['5', '0'] ']') (1 / 2)
    (Or.inl (And.intro rfl rfl)) (by norm_num)).1
  rw [h]
  have hticks :
      tagTicks (TagMatch.mk '[' ['0', '1'] ['0', '2'] ['5', '0'] ']') = 6250 := by
    decide
  have hlen :
      (TagMatch.mk '[' ['0', '1'] ['0', '2'] ['5', '0'] ']').fracStr.length = 2 :=
    rfl
  rw [hlen, hticks]
  have hround : pyRound ((1 / 2 : ℚ) * 10 ^ (2 : ℕ)) = 50 := by
    norm_num [pyRound]
  rw [hround]
  rw [show ((6250 : ℕ) : ℤ) + 50 = (6300 : ℤ) by norm_num]
  rw [show (max 0 (6300 : ℤ)).toNat = 6300 by decide]
  decide

theorem splitlinesAux_nonbreak (c : Char) (rest acc : List Char) (b : Bool)
    (h : isLineBreak c = false) :
    splitlinesAux (c :: rest) b acc = splitlinesAux rest false (c :: acc) := by
  have h1 : ¬ (c = '\n') := by
    intro he
    rw [he] at h
    exact absurd h (by decide)
  have h2 : ¬ (c = '\r') := by
    intro he
    rw [he] at h
    exact absurd h (by decide)
  simp [splitlinesAux, h1, h2, h]

theorem splitlinesAux_newline (rest acc : List Char) :
    splitlinesAux ('\n' :: rest) false acc =
      ⟨acc.reverse⟩ :: splitlinesAux rest false [] := by
  simp [splitlinesAux]

theorem splitlinesAux_no_breaks (cs : List Char) :
    ∀ (b : Bool) (acc : List Char),
      (∀ c ∈ acc, isLineBreak c = false) →
      ∀ l ∈ splitlinesAux cs b acc, ∀ c ∈ l.data, isLineBreak c = false := by
  induction cs with
  | nil =>
    intro b acc hacc l hl c hc
    by_cases h0 : acc = []
    · simp [splitlinesAux, h0] at hl
    · simp only [splitlinesAux, h0, if_false, List.mem_singleton] at hl
      subst hl
      exact hacc c (by simpa using hc)
  | cons c0 rest ih =>
    intro b acc hacc l hl cc hcc
    by_cases h0 : c0 = '\n'
    · subst h0
      by_cases hb : b = true
    
      · subst hb
        have hstep : splitlinesAux ('\n' :: rest) true acc =
            splitlinesAux rest false acc := by
          simp [splitlinesAux]
        rw [hstep] at hl
        exact ih false acc hacc l hl cc hcc
      · have hb2 : b = false := by revert hb; cases b <;> simp
        subst hb2
        rw [splitlinesAux_newline] at hl
        rcases List.mem_cons.mp hl with he | hm
        · subst he
          exact hacc cc (by simpa using hcc)
        · exact ih false [] (by simp) l hm cc hcc
    · by_cases h1 : c0 = '\r'
      · subst h1
        have hstep : splitlinesAux ('\r' :: rest) b acc =
            ⟨acc.reverse⟩ :: splitlinesAux rest true [] := by
          simp [splitlinesAux]
        rw [hstep] at hl
        rcases List.mem_cons.mp hl with he | hm
        · subst he
          exact hacc cc (by simpa using hcc)
        · exact ih true [] (by simp) l hm cc hcc
      · by_cases h2 : isLineBreak c0 = true
        · have hstep : splitlinesAux (c0 :: rest) b acc =
              ⟨acc.reverse⟩ :: splitlinesAux rest false [] := by
            simp [splitlinesAux, h0, h1, h2]
          rw [hstep] at hl
          rcases List.mem_cons.mp hl with he | hm
          · subst he
            exact hacc cc (by simpa using hcc)
          · exact ih false [] (by simp) l hm cc hcc
        · have h2f : isLineBreak c0 = false := by
            revert h2; cases isLineBreak c0 <;> simp
          rw [splitlinesAux_nonbreak c0 rest acc b h2f] at hl
          refine ih false (c0 :: acc) ?_ l hl cc hcc
          intro x hx
          rcases List.mem_cons.mp hx with he | hm
          · subst he; exact h2f
          · exact hacc x hm

theorem splitlinesAux_all_nonbreak (l : List Char)
    (h : ∀ c ∈ l, isLineBreak c = false) :
    ∀ acc, splitlinesAux l false acc =
      if acc = [] ∧ l = [] then [] else [⟨acc.reverse ++ l⟩] := by
  induction l with
  | nil =>
    intro acc
    by_cases h0 : acc = []
    · simp [splitlinesAux, h0]
    · simp [splitlinesAux, h0]
  | cons c t ih =>
    intro acc
    rw [splitlinesAux_nonbreak c t acc false (h c (by simp))]
    rw [ih (fun x hx => h x (by simp [hx])) (c :: acc)]
    have hne : ¬ ((c :: acc : List Char) = [] ∧ t = []) := by simp
    have hne2 : ¬ ((acc : List Char) = [] ∧ (c :: t : List Char) = []) := by simp
    rw [if_neg hne, if_neg hne2]
    simp

theorem splitlinesAux_sep (l : List Char)
    (h : ∀ c ∈ l, isLineBreak c = false) :
    ∀ (acc rest : List Char),
      splitlinesAux (l ++ '\n' :: rest) false acc =
        ⟨acc.reverse ++ l⟩ :: splitlinesAux rest false [] := by
  induction l with
  | nil =>
    intro acc rest
    rw [List.nil_append, splitlinesAux_newline]
    simp
  | cons c t ih =>
    intro acc rest
    rw [List.cons_append,
      splitlinesAux_nonbreak c (t ++ '\n' :: rest) acc false (h c (by simp))]
    rw [ih (fun x hx => h x (by simp [hx])) (c :: acc) rest]
    simp

theorem joinNL_single (x : String) : joinNL [x] = x := by
  simp [joinNL]

theorem joinNL_cons_cons (x y : String) (tl : List String) :
    joinNL (x :: y :: tl) = ⟨x.data ++ '\n' :: (joinNL (y :: tl)).data⟩ := by
  simp [joinNL, List.intersperse]

theorem splitlines_joinNL (ls : List String)
    (hnb : ∀ l ∈ ls, ∀ c ∈ l.data, isLineBreak c = false)
    (hlast : ∀ l, ls.getLast? = some l → l ≠ "") :
    pySplitlines (joinNL ls) = ls := by
  induction ls with
  | nil => rfl
  | cons x tl ih =>
    cases tl with
    | nil =>
      rw [joinNL_single, pySplitlines]
      rw [splitlinesAux_all_nonbreak x.data (hnb x (by simp)) []]
      have hx : x ≠ "" := hlast x (by simp)
      have hxd : x.data ≠ [] := by
        intro he
        apply hx
        cases x with
        | mk d => simp at he; rw [he]
      rw [if_neg (by simp [hxd])]
      simp
    | cons y tl2 =>
      rw [joinNL_cons_cons, pySplitlines]
      show splitlinesAux (x.data ++ '\n' :: (joinNL (y :: tl2)).data) false [] = _
      rw [splitlinesAux_sep x.data (hnb x (by simp)) [] (joinNL (y :: tl2)).data]
      have hih : splitlinesAux (joinNL (y :: tl2)).data false [] = y :: tl2 := by
        have := ih (fun l hl => hnb l (by simp [hl]))
          (fun l hl => hlast l (by rw [List.getLast?_cons_cons]; exact hl))
        exact this
      rw [hih]
      simp

theorem zero_offset_line_cases (l : String) :
    zero_offset_line l = l ∨ zero_offset_line l = "[offset:0]" := by
  by_cases hm : (matchOffsetLine l.data).isSome
  · right
    rw [zero_offset_line, if_pos hm]
  · left
    rw [zero_offset_line, if_neg hm]

theorem zero_offset_line_idem (l : String) :
    zero_offset_line (zero_offset_line l) = zero_offset_line l := by
  rcases zero_offset_line_cases l with h | h
  · rw [h]
    exact h
  · rw [h]
    have : (matchOffsetLine ("[offset:0]" : String).data).isSome := by decide
    rw [zero_offset_line, if_pos this]

theorem zero_offset_line_no_breaks (l : String)
    (h : ∀ c ∈ l.data, isLineBreak c = false) :
    ∀ c ∈ (zero_offset_line l).data, isLineBreak c = false := by
  rcases zero_offset_line_cases l with he | he <;> rw [he]
  · exact h
  · decide

theorem zero_offset_line_ne_empty (l : String) (h : l ≠ "") :
    zero_offset_line l ≠ "" := by
  rcases zero_offset_line_cases l with he | he <;> rw [he]
  · exact h
  · decide

theorem map_zol_idem (lines : List String) :
    (lines.map zero_offset_line).map zero_offset_line =
      lines.map zero_offset_line := by
  induction lines with
  | nil => rfl
  | cons l rest ih =>
    simp only [List.map_cons, zero_offset_line_idem, ih]

theorem findFirstOffsetVal_map_zol (lines : List String) :
    findFirstOffsetVal (lines.map zero_offset_line) = none ∨
      findFirstOffsetVal (lines.map zero_offset_line) = some ['0'] := by
  induction lines with
  | nil => left; rfl
  | cons l rest ih =>
    rw [List.map_cons, findFirstOffsetVal]
    by_cases hm : (matchOffsetLine l.data).isSome
    · have hz : zero_offset_line l = "[offset:0]" := by
        rw [zero_offset_line, if_pos hm]
      rw [hz]
      have : matchOffsetLine ("[offset:0]" : String).data = some ['0'] := by
        decide
      rw [this]
      right
      rfl
    · have hz : zero_offset_line l = l := by rw [zero_offset_line, if_neg hm]
      rw [hz]
      have hnone : matchOffsetLine l.data = none := by
        revert hm
        cases matchOffsetLine l.data <;> simp
      rw [hnone]
      exact ih

theorem parse_offset_zero (units : String) :
    parse_offset_seconds ⟨['0']⟩ units = some 0 := by
  have hr : parseFloatRepr ⟨['0']⟩ = some ⟨false, 0, 0, 0, false, 0⟩ := by
    decide
  have hfloat : pyFloatOfString ⟨['0']⟩ = some 0 := by
    rw [pyFloatOfString, hr]
    norm_num [FloatRepr.val, Option.map]
  simp only [parse_offset_seconds, hfloat]
  by_cases h1 : units = "seconds"
  · rw [if_pos h1]
  · rw [if_neg h1]
    by_cases h2 : units = "milliseconds"
    · rw [if_pos h2]
      norm_num
    · rw [if_neg h2]
      have hdot : ((⟨['0']⟩ : String).data.contains '.') = false := by decide
      rw [hdot]
      have habs : ¬ (100 < |(0 : ℚ)|) := by norm_num
      simp [habs]

/-- C2 counterexample — with no offset field (a zero resolved offset), the
transform is not idempotent at text level: `"\n\n"` splits into two empty
lines and re-joins as `"\n"`, and a second application yields `""`; the
second run drops the trailing empty line, so running twice differs from
running once. -/
theorem C2_zero_offset_counterexample :
    process_lrc "\n\n" "auto" = some "\n" ∧
      process_lrc "\n" "auto" = some "" ∧
      some ("\n" : String) ≠ some ("" : String) := by
  refine ⟨by decide, by decide, by decide⟩

/-- C2 (amended): when the first offset field resolves to (numerically)
zero, or no offset field exists, the transform maps every line through
`zero_offset_line` — leaving non-offset lines unchanged and normalizing
offset lines to `[offset:0]` — and re-joins with `\n`; a second application
is a no-op provided the split lines do not end with an empty line (for texts
whose last split line is empty, the join/split round trip drops that line,
so only the line contents, not the byte-level text, are preserved). -/
theorem C2_zero_offset_noop (text units : String)
    (hzero : isZeroOffsetCase text units = true) :
    process_lrc text units =
        some (joinNL ((pySplitlines text).map zero_offset_line)) ∧
      (∀ l, matchOffsetLine l.data = none → zero_offset_line l = l) ∧
      (∀ l, (matchOffsetLine l.data).isSome → zero_offset_line l = "[offset:0]") ∧
      (noTrailingEmptyLine text = true →
        process_lrc (joinNL ((pySplitlines text).map zero_offset_line)) units =
          some (joinNL ((pySplitlines text).map zero_offset_line))) := by
  have hfirst : process_lrc text units =
      some (joinNL ((pySplitlines text).map zero_offset_line)) := by
    rw [process_lrc, process_lrc_lines]
    rcases hfind : findFirstOffsetVal (pySplitlines text) with _ | rawVal
    · simp [hfind]
    · simp only [isZeroOffsetCase, hfind] at hzero
      rcases hpar : parse_offset_seconds ⟨rawVal⟩ units with _ | offv
      · simp only [hpar] at hzero
        exact absurd hzero (by decide)
      · simp only [hpar] at hzero
        have hsmall : |offv| < 1 / 1000000000000 := by
          simpa using hzero
        have hsmall2 : |offv| < (1000000000000 : ℚ)⁻¹ := by
          rwa [one_div] at hsmall
        simp [hfind, hpar, hsmall2]
  refine ⟨hfirst, ?_, ?_, ?_⟩
  · intro l h
    rw [zero_offset_line, h]
    rfl
  · intro l h
    rw [zero_offset_line, if_pos h]
  · intro hne
    set lines := pySplitlines text with hlines
    set ls2 := lines.map zero_offset_line with hls2
    have hnb2 : ∀ l ∈ ls2, ∀ c ∈ l.data, isLineBreak c = false := by
      intro l hl
      rw [hls2] at hl
      obtain ⟨l0, hl0, hmap⟩ := List.mem_map.mp hl
      rw [← hmap]
      apply zero_offset_line_no_breaks
      exact splitlinesAux_no_breaks text.data false [] (by simp) l0 hl0
    have hlast2 : ∀ l, ls2.getLast? = some l → l ≠ "" := by
      intro l hl
      rw [hls2, List.getLast?_map] at hl
      rcases hg : lines.getLast? with _ | l0
      · rw [hg] at hl
        simp at hl
      · rw [hg] at hl
        simp at hl
        rw [noTrailingEmptyLine, ← hlines, hg] at hne
        have hl0 : l0 ≠ "" := by
          intro he
          rw [he] at hne
          simp at hne
        rw [← hl]
        exact zero_offset_line_ne_empty l0 hl0
    have hsplit2 : pySplitlines (joinNL ls2) = ls2 :=
      splitlines_joinNL ls2 hnb2 hlast2
    have hidem : ls2.map zero_offset_line = ls2 := by
      rw [hls2]
      exact map_zol_idem lines
    rw [process_lrc, process_lrc_lines]
    rcases findFirstOffsetVal_map_zol lines with hfind | hfind
    · rw [← hls2] at hfind
      simp only [hsplit2, hfind, hidem]
      rfl
    · rw [← hls2] at hfind
      simp only [hsplit2, hfind, parse_offset_zero]
      have habs0 : |(0 : ℚ)| < 1 / 1000000000000 := by norm_num
      rw [if_pos habs0]
      simp only [hidem]
      rfl

/-- C2 witness: a text whose offset field is `0`: the transform keeps the
lyric line, normalizes the offset line, and a second application (the text
has no trailing empty line) is a no-op. -/
theorem C2_zero_offset_noop_witness :
    process_lrc "[offset:0]\n[00:01.00]hi" "auto" =
        some (joinNL ((pySplitlines "[offset:0]\n[00:01.00]hi").map
          zero_offset_line)) ∧
      process_lrc (joinNL ((pySplitlines "[offset:0]\n[00:01.00]hi").map
          zero_offset_line)) "auto" =
        some (joinNL ((pySplitlines "[offset:0]\n[00:01.00]hi").map
          zero_offset_line)) := by
  have hz : isZeroOffsetCase "[offset:0]\n[00:01.00]hi" "auto" = true := by
    rw [isZeroOffsetCase]
    have hfind : findFirstOffsetVal (pySplitlines "[offset:0]\n[00:01.00]hi") =
        some ['0'] := by decide
    simp only [hfind, parse_offset_zero, decide_eq_true_eq]
    norm_num
  have h := C2_zero_offset_noop "[offset:0]\n[00:01.00]hi" "auto" hz
  exact ⟨h.1, h.2.2.2 (by decide)⟩

theorem updateLast_cons (w : LyricWord) (t : List LyricWord) (ts : ℚ) :
    updateLast (w :: t) ts =
      match t with
      | [] => [{ w with end_timestamp := some ts }]
      | _ :: _ => w :: updateLast t ts := by
  cases t with
  | nil => rfl
  | cons v r => rfl

theorem updateLast_updateLast (ws : List LyricWord) (a b : ℚ) :
    updateLast (updateLast ws a) b = updateLast ws b := by
  induction ws with
  | nil => rfl
  | cons w t ih =>
    cases t with
    | nil => rfl
    | cons v r =>
      rw [updateLast_cons w (v :: r) a]
      have hne : updateLast (v :: r) a ≠ [] := by
        rw [updateLast_cons]
        cases r <;> simp
      rcases hu : updateLast (v :: r) a with _ | ⟨u, us⟩
      · exact absurd hu hne
      · rw [updateLast_cons w (u :: us) b, ← hu]
        rw [updateLast_cons w (v :: r) b]
        rw [hu]
        simp only []
        rw [← hu, ih]

theorem updateLast_append_singleton (ws : List LyricWord) (w : LyricWord)
    (u : ℚ) :
    updateLast (ws ++ [w]) u = ws ++ [{ w with end_timestamp := some u }] := by
  induction ws with
  | nil => rfl
  | cons a t ih =>
    rw [List.cons_append]
    have hne : t ++ [w] ≠ [] := by simp
    have hred : updateLast (a :: (t ++ [w])) u =
        a :: updateLast (t ++ [w]) u := by
      rcases ht : t ++ [w] with _ | ⟨x, xs⟩
      · exact absurd ht hne
      · rfl
    rw [hred, ih]
    simp

theorem getLast?_cons_form (x : ℚ) (l : List ℚ) :
    (x :: l).getLast? =
      match l.getLast? with
      | none => some x
      | some y => some y := by
  cases l with
  | nil => rfl
  | cons y r =>
    rw [List.getLast?_cons_cons]
    rcases hg : (y :: r).getLast? with _ | z
    · exact absurd hg (by simp)
    · simp

theorem endFor_cons_empty (ts : List Char)
    (rest : List (List Char × List Char)) :
    endFor ((ts, ([] : List Char)) :: rest) =
      match endFor rest with
      | none => some (wordTs ts)
      | some u => some u := by
  rw [endFor, endFor, List.takeWhile_cons]
  simp only [decide_eq_true_eq, if_true]
  simp only [List.map_cons]
  exact getLast?_cons_form (wordTs ts) _

theorem endFor_cons_nonempty (ts seg : List Char)
    (rest : List (List Char × List Char)) (hseg : seg ≠ []) :
    endFor ((ts, seg) :: rest) = none := by
  rw [endFor, List.takeWhile_cons]
  simp only [decide_eq_true_eq]
  rw [if_neg hseg]
  simp

theorem buildWordsAux_spec (toks : List (List Char × List Char)) :
    ∀ acc, buildWordsAux acc toks = patchEnd acc (endFor toks) ++ specWords toks := by
  induction toks with
  | nil =>
    intro acc
    have hend : endFor [] = none := rfl
    rw [buildWordsAux, hend, patchEnd]
    simp [specWords]
  | cons t rest ih =>
    intro acc
    obtain ⟨ts, seg⟩ := t
    by_cases hseg : seg = []
    · subst hseg
      rw [buildWordsAux, if_pos rfl]
      rw [ih (updateLast acc (wordTs ts))]
      have hspec : specWords ((ts, ([] : List Char)) :: rest) =
          specWords rest := by
        rw [specWords, if_pos rfl]
      rw [hspec, endFor_cons_empty]
      rcases hu : endFor rest with _ | u
      · simp [patchEnd]
      · simp only [patchEnd]
        rw [updateLast_updateLast]
    · rw [buildWordsAux, if_neg hseg]
      rw [ih]
      have hspec : specWords ((ts, seg) :: rest) =
          ⟨wordTs ts, seg, endFor rest⟩ :: specWords rest := by
        rw [specWords, if_neg hseg]
      rw [hspec, endFor_cons_nonempty ts seg rest hseg]
      rcases hu : endFor rest with _ | u
      · simp [patchEnd]
      · simp only [patchEnd]
        rw [updateLast_append_singleton]
        simp

/-- C8: parsing an encoded line with angle-bracketed tags, every tag whose
following segment (up to the next tag or end of line) is empty produces no
word and instead sets the end timestamp of the immediately preceding word
to that tag's time (the last such tag wins); every tag with non-empty text
produces a new word with that start time and text, in left-to-right order;
and the returned line timestamp is the first word's timestamp (zero when no
words result). -/
theorem C8_end_marker_rule (line : String) :
    (parse_precise_lrc_line line).2 = specWords (wordTokens line.data) ∧
      (parse_precise_lrc_line line).1 =
        (match specWords (wordTokens line.data) with
         | [] => 0
         | w :: _ => w.timestamp) ∧
      (∀ toks acc, buildWordsAux acc toks =
        patchEnd acc (endFor toks) ++ specWords toks) := by
  have hmain : buildWordsAux [] (wordTokens line.data) =
      specWords (wordTokens line.data) := by
    rw [buildWordsAux_spec (wordTokens line.data) []]
    rcases endFor (wordTokens line.data) with _ | u
    · simp [patchEnd]
    · simp [patchEnd, updateLast]
  refine ⟨?_, ?_, fun toks acc => buildWordsAux_spec toks acc⟩
  · show (buildWordsAux [] (wordTokens line.data)) = _
    exact hmain
  · show (match buildWordsAux [] (wordTokens line.data) with
      | [] => (0 : ℚ)
      | w :: _ => w.timestamp) = _
    rw [hmain]

end LrcPlayer

